import Mathlib

/-!
# Huffman encoder: a verification development

A shallow embedding of `src/huffman.h` / `src/huffman.cpp` and theorems about it.

Conventions of the embedding:
* `byte` (`unsigned char`) is `Fin 256`;
* `std::vector<bool>` / `std::vector<byte>` are `List Bool` / `List byte`;
* a `std::vector<bool>::const_iterator` is the suffix of the vector that starts at the
  position it points to, so `end` is `[]` and `it == end` is `it = []`;
* code whose behaviour is undefined or aborts (dereferencing an iterator at `end`,
  `front()` of an empty vector, erasing past the end, a failed `assert`, `top()`/`pop()` of an
  empty queue) returns `none`;
* the `int` frequency counters are natural numbers: they coincide with the C++ values as long as
  the sum of all frequencies fits an `int` (buffers of fewer than `2^31 - 1` bytes); beyond that
  the source has signed overflow, which C++ leaves undefined;
* `std::priority_queue` is standard-library code, not part of the repository: the development is
  parametric in an implementation `priority_queue` that obeys the contract of the standard
  (see `priority_queue`), so every theorem holds for every tie-breaking order.
-/

namespace Huffman

/-- The C++ `using byte = unsigned char`. -/
abbrev byte := Fin 256

/-- The C++ constant `BITS_IN_BYTE`. -/
def BITS_IN_BYTE : Nat := 8

/-! ## Bit / byte packing -/

/-- The loop of `read_byte`: `n` iterations are left, `pos` is the loop counter, `res` the
accumulator (kept in the range of a byte), `it` the iterator. -/
def read_byte_loop : Nat → Nat → Nat → List Bool → Option (Nat × List Bool)
  | 0, _, res, it => some (res, it)
  | _ + 1, _, _, [] => none
  | n + 1, pos, res, b :: it => read_byte_loop n (pos + 1) ((res ||| (b.toNat <<< pos)) % 256) it

/-- The C++ `read_byte(it)`: reads 8 bits, least significant first, and advances the iterator.
`none` when fewer than 8 bits are left. -/
def read_byte (it : List Bool) : Option (byte × List Bool) :=
  match read_byte_loop BITS_IN_BYTE 0 0 it with
  | some (res, it1) => some (Fin.ofNat res, it1)
  | none => none

/-- The `for (auto &b : res) b = read_byte(bit_it)` loop of `bits_to_bytes`, for `n` bytes. -/
def bits_to_bytes_loop : Nat → List Bool → Option (List byte)
  | 0, _ => some []
  | n + 1, it =>
    match read_byte it with
    | none => none
    | some (b, it1) =>
      match bits_to_bytes_loop n it1 with
      | none => none
      | some rest => some (b :: rest)

/-- The C++ `bits_to_bytes`; `none` when the assertion `bits.size() % BITS_IN_BYTE == 0` fails. -/
def bits_to_bytes (bits : List Bool) : Option (List byte) :=
  if bits.length % BITS_IN_BYTE = 0 then
    bits_to_bytes_loop (bits.length / BITS_IN_BYTE) bits
  else none

/-- The inner loop of `bytes_to_bits`: the 8 bits `(b >> pos) & 1u` of one byte. -/
def byte_bits (b : byte) : List Bool :=
  (List.range BITS_IN_BYTE).map (fun pos => decide ((b.val >>> pos) &&& 1 ≠ 0))

/-- The C++ `bytes_to_bits`. -/
def bytes_to_bits (bytes : List byte) : List Bool :=
  bytes.flatMap byte_bits

/-- The C++ `bits_to_bytes_with_padding`. -/
def bits_to_bytes_with_padding (bits : List Bool) : Option (List byte) :=
  let padding : byte := Fin.ofNat (BITS_IN_BYTE - bits.length % BITS_IN_BYTE)
  match bits_to_bytes (List.replicate padding.val false ++ bits) with
  | none => none
  | some res => some (padding :: res)

/-- The C++ `bytes_with_padding_to_bits`; `none` when `front()` is taken of an empty vector or
when the erased range `[begin, begin + padding)` goes past the end. -/
def bytes_with_padding_to_bits (bytes : List byte) : Option (List Bool) :=
  match bytes with
  | [] => none
  | padding :: rest =>
    let res := bytes_to_bits rest
    if padding.val ≤ res.length then some (res.drop padding.val) else none

/-! ## The tree shared by encoder and decoder -/

/-- The C++ `huffman_tree_base::node`: built by `node(byte ch)` (a leaf, `go = {nullptr, nullptr}`)
or by `node(left, right)` (both children owned, `ch = 0`). -/
inductive node where
  | leaf (ch : byte) : node
  | internal (left right : node) : node
  deriving DecidableEq, Repr

/-- The C++ `node::is_leaf`. -/
def node.is_leaf : node → Bool
  | node.leaf _ => true
  | node.internal _ _ => false

/-! ## The priority queue of the encoder -/

/-- The C++ `huffman_encoding_tree::subtree_ref`. -/
structure subtree_ref where
  subtree : node
  freq : Nat
  deriving DecidableEq, Repr

/-- The C++ `subtree_ref::operator<`: `freq > other.freq`. -/
def subtree_ref.lt (a other : subtree_ref) : Bool :=
  decide (a.freq > other.freq)

/-- An implementation of `std::priority_queue<subtree_ref>` (standard-library code that is not
part of the repository), described by the contract of the C++ standard: `Q` is the type of queue
states and `elems` lists the entries a state holds (in no particular order). `emplace` adds one
entry; on a non-empty queue `top` is an entry that is not `operator<` any entry of the queue and
`pop` removes exactly that entry. Which of several entries of equal frequency is on top is left
to the implementation. -/
structure priority_queue where
  Q : Type
  empty : Q
  emplace : Q → subtree_ref → Q
  top : Q → Option subtree_ref
  pop : Q → Q
  size : Q → Nat
  elems : Q → List subtree_ref
  elems_empty : elems empty = []
  size_eq : ∀ q, size q = (elems q).length
  elems_emplace : ∀ q e, (elems (emplace q e)).Perm (e :: elems q)
  top_pop : ∀ q, elems q ≠ [] →
    ∃ e, top q = some e ∧ (e :: elems (pop q)).Perm (elems q) ∧
      ∀ x ∈ elems q, subtree_ref.lt e x = false

/-- A simple implementation of the queue contract, used to run the model on concrete inputs: an
unordered list in which `top` searches a least-frequency entry (the first one among equal
frequencies) and `pop` erases it. -/
def list_queue : priority_queue where
  Q := List subtree_ref
  empty := []
  emplace := fun q e => q ++ [e]
  top := fun q => q.argmin subtree_ref.freq
  pop := fun q =>
    match q.argmin subtree_ref.freq with
    | none => q
    | some m => q.erase m
  size := List.length
  elems := id
  elems_empty := rfl
  size_eq := fun _ => rfl
  elems_emplace := fun q e => (List.perm_append_comm : (q ++ [e]).Perm ([e] ++ q))
  top_pop := fun q hq => by
    cases h : q.argmin subtree_ref.freq with
    | none => exact absurd (List.argmin_eq_none.1 h) hq
    | some m =>
      have hm : m ∈ q := List.argmin_mem h
      refine ⟨m, h, ?_, ?_⟩
      · simpa only [h, id] using (List.perm_cons_erase hm).symm
      intro x hx
      simp only [subtree_ref.lt, decide_eq_false_iff_not, not_lt, gt_iff_lt]
      exact List.le_of_mem_argmin hx h

/-! ## Encoding tree -/

/-- The C++ constant `huffman_encoding_tree::TABLE_SIZE`. -/
def TABLE_SIZE : Nat := 1 <<< BITS_IN_BYTE

/-- The C++ statement `freq[ch]++` on the frequency table. -/
def incr (freq : byte → Nat) (ch : byte) : byte → Nat :=
  Function.update freq ch (freq ch + 1)

/-- The counting loop `for (it = begin; it != end; ++it) freq[*it]++` on a zeroed table. -/
def count_freq (data : List byte) : byte → Nat :=
  data.foldl incr (fun _ => 0)

/-- The C++ `char_cnt = TABLE_SIZE - std::count(begin(freq), end(freq), 0)`. -/
def char_cnt (freq : byte → Nat) : Nat :=
  TABLE_SIZE - ((List.finRange 256).map freq).count 0

/-- The C++ `std::find_if(begin(freq), end(freq), x != 0) - begin(freq)`: the index of the first
non-zero entry, `TABLE_SIZE` when there is none. -/
def find_nonzero (freq : byte → Nat) : Nat :=
  match (List.finRange 256).find? (fun c => freq c != 0) with
  | some c => c.val
  | none => TABLE_SIZE

/-- The two special cases of the constructor: an empty buffer gets `freq[0]++`, and a table with
at most one symbol gets `freq[static_cast<byte>(ch + 1)]++` for the first present symbol `ch`. -/
def adjust_freq (freq : byte → Nat) : byte → Nat :=
  let cnt := char_cnt freq
  let freq1 := if cnt = 0 then incr freq 0 else freq
  if cnt ≤ 1 then
    let ch : byte := Fin.ofNat (find_nonzero freq1)
    incr freq1 (Fin.ofNat (ch.val + 1))
  else freq1

/-- The seeding loop: `for ch in 0..TABLE_SIZE: if (freq[ch]) heap.emplace(node(ch), freq[ch])`. -/
def seed_heap (pq : priority_queue) (freq : byte → Nat) : pq.Q :=
  (List.finRange 256).foldl
    (fun heap ch => if freq ch ≠ 0 then pq.emplace heap ⟨node.leaf ch, freq ch⟩ else heap)
    pq.empty

/-- The lambda `get_from_heap`: moves the top entry out and pops it. `none` on an empty heap. -/
def get_from_heap (pq : priority_queue) (heap : pq.Q) : Option ((node × Nat) × pq.Q) :=
  if pq.size heap = 0 then none
  else
    match pq.top heap with
    | none => none
    | some e => some ((e.subtree, e.freq), pq.pop heap)

/-- The loop `while (heap.size() > 1) { pop two, emplace their merge }`, at most `fuel`
iterations; `none` when the fuel runs out or an empty heap is popped. -/
def merge_loop (pq : priority_queue) : Nat → pq.Q → Option pq.Q
  | 0, heap => if pq.size heap > 1 then none else some heap
  | fuel + 1, heap =>
    if pq.size heap > 1 then
      match get_from_heap pq heap with
      | none => none
      | some ((ptr_left, freq_left), heap1) =>
        match get_from_heap pq heap1 with
        | none => none
        | some ((ptr_right, freq_right), heap2) =>
          merge_loop pq fuel
            (pq.emplace heap2 ⟨node.internal ptr_left ptr_right, freq_left + freq_right⟩)
    else some heap

/-- The C++ `build_codes_dfs`: `codes` is the table being filled, `cur_code` the path so far. -/
def build_codes_dfs : node → List Bool → (byte → List Bool) → (byte → List Bool)
  | node.leaf ch, cur_code, codes => Function.update codes ch cur_code
  | node.internal left right, cur_code, codes =>
    build_codes_dfs right (cur_code ++ [true])
      (build_codes_dfs left (cur_code ++ [false]) codes)

/-- The C++ `build_codes`, on the value-initialised (all empty) table `codes{}`. -/
def build_codes (tree : node) : byte → List Bool :=
  build_codes_dfs tree [] (fun _ => [])

/-- The leaf loop of `tree_info_dfs`: `n` times `info.push_back(ch & 1u); ch >>= 1u`. -/
def tree_info_bits : Nat → Nat → List Bool → List Bool
  | 0, _, info => info
  | n + 1, ch, info => tree_info_bits n (ch >>> 1) (info ++ [decide (ch &&& 1 ≠ 0)])

/-- The C++ `tree_info_dfs`, returning the extended `info`. -/
def tree_info_dfs : node → List Bool → List Bool
  | node.leaf ch, info => tree_info_bits BITS_IN_BYTE ch.val (info ++ [true])
  | node.internal left right, info => tree_info_dfs right (tree_info_dfs left (info ++ [false]))

/-- The C++ class `huffman_encoding_tree`: the owned tree and the code table. -/
structure huffman_encoding_tree where
  tree : node
  codes : byte → List Bool

/-- The constructor `huffman_encoding_tree(begin, end)`. The merge loop gets as much fuel as the
heap has entries, which is always enough. -/
def huffman_encoding_tree.construct (pq : priority_queue) (data : List byte) :
    Option huffman_encoding_tree :=
  let freq := adjust_freq (count_freq data)
  let heap := seed_heap pq freq
  match merge_loop pq (pq.size heap) heap with
  | none => none
  | some heap1 =>
    match get_from_heap pq heap1 with
    | none => none
    | some ((tree, _), _) => some ⟨tree, build_codes tree⟩

/-- The C++ `get_tree_info`. -/
def huffman_encoding_tree.get_tree_info (t : huffman_encoding_tree) : List Bool :=
  tree_info_dfs t.tree []

/-- The C++ `get_code`. -/
def huffman_encoding_tree.get_code (t : huffman_encoding_tree) (ch : byte) : List Bool :=
  t.codes ch

/-! ## Decoding tree -/

/-- The C++ `tree_build_dfs` on the iterator `it`, returning the subtree and the advanced
iterator. `fuel` bounds the depth of the recursion; `none` when the iterator runs past the end
(or the fuel runs out). -/
def tree_build_dfs : Nat → List Bool → Option (node × List Bool)
  | 0, _ => none
  | _ + 1, [] => none
  | _ + 1, true :: it =>
    match read_byte it with
    | none => none
    | some (ch, it1) => some (node.leaf ch, it1)
  | fuel + 1, false :: it =>
    match tree_build_dfs fuel it with
    | none => none
    | some (left, it1) =>
      match tree_build_dfs fuel it1 with
      | none => none
      | some (right, it2) => some (node.internal left right, it2)

/-- The C++ class `huffman_decoding_tree`: the tree and the cursor `it` (`end` is `[]`). -/
structure huffman_decoding_tree where
  tree : node
  it : List Bool

/-- The constructor `huffman_decoding_tree(begin, end)`. Every recursive call reads a bit before
it recurses, so the depth of the recursion is at most the number of bits. -/
def huffman_decoding_tree.construct (bits : List Bool) : Option huffman_decoding_tree :=
  match tree_build_dfs bits.length bits with
  | none => none
  | some (tree, it) => some ⟨tree, it⟩

/-- The C++ `eof`. -/
def huffman_decoding_tree.eof (t : huffman_decoding_tree) : Bool :=
  t.it.isEmpty

/-- The C++ `get_it`. -/
def huffman_decoding_tree.get_it (t : huffman_decoding_tree) : List Bool :=
  t.it

/-- The C++ `decode_char_dfs`: `go[*it++]` is the left child on `0`, the right child on `1`. -/
def decode_char_dfs : node → List Bool → Option (byte × List Bool)
  | node.leaf ch, it => some (ch, it)
  | node.internal _ _, [] => none
  | node.internal left _, false :: it => decode_char_dfs left it
  | node.internal _ right, true :: it => decode_char_dfs right it

/-- The C++ `decode_char`, returning the symbol and the tree with the advanced cursor. -/
def huffman_decoding_tree.decode_char (t : huffman_decoding_tree) :
    Option (byte × huffman_decoding_tree) :=
  match decode_char_dfs t.tree t.it with
  | none => none
  | some (ch, it1) => some (ch, ⟨t.tree, it1⟩)

/-! ## The runner -/

/-- The C++ `huffman_runner::result`. -/
structure result where
  data : List byte
  initial_size : Nat
  processed_size : Nat
  aux_size : Nat
  deriving DecidableEq, Repr

/-- Subtraction of two `std::size_t` values (64 bits), which wraps around. -/
def size_t_sub (a b : Nat) : Nat :=
  (a % 2 ^ 64 + (2 ^ 64 - b % 2 ^ 64)) % 2 ^ 64

/-- The loop `for (b : data) encoded_chars.insert(end, code(b))` of `encode`. -/
def encode_chars (tree : huffman_encoding_tree) (data : List byte) : List Bool :=
  data.foldl (fun encoded_chars b => encoded_chars ++ tree.get_code b) []

/-- The C++ `huffman_runner::encode`. -/
def encode (pq : priority_queue) (data : List byte) : Option result :=
  match huffman_encoding_tree.construct pq data with
  | none => none
  | some tree =>
    let encoded_chars := encode_chars tree data
    let res := tree.get_tree_info ++ encoded_chars
    match bits_to_bytes_with_padding res with
    | none => none
    | some data_to_write =>
      let encoded_text_size := (encoded_chars.length + BITS_IN_BYTE - 1) / BITS_IN_BYTE
      let aux_size := size_t_sub data_to_write.length encoded_text_size
      some ⟨data_to_write, data.length, encoded_text_size, aux_size⟩

/-- The loop `while (!tree.eof()) res.push_back(tree.decode_char())` of `decode`, at most `fuel`
iterations. -/
def decode_loop : Nat → huffman_decoding_tree → List byte → Option (List byte)
  | 0, tree, res => if tree.eof then some res else none
  | fuel + 1, tree, res =>
    if tree.eof then some res
    else
      match tree.decode_char with
      | none => none
      | some (ch, tree1) => decode_loop fuel tree1 (res ++ [ch])

/-- The C++ `huffman_runner::decode`. The loop gets as much fuel as there are payload bits; on
a tree whose root is internal every iteration consumes a bit. -/
def decode (data : List byte) : Option result :=
  match bytes_with_padding_to_bits data with
  | none => none
  | some bits =>
    match huffman_decoding_tree.construct bits with
    | none => none
    | some tree =>
      let encoded_text_size := (tree.get_it.length + BITS_IN_BYTE - 1) / BITS_IN_BYTE
      match decode_loop tree.get_it.length tree [] with
      | none => none
      | some res =>
        let aux_size := size_t_sub data.length encoded_text_size
        some ⟨res, encoded_text_size, res.length, aux_size⟩

/-! ## The configuration of the runner -/

/-- The C++ `huffman_runner::action`. -/
inductive action where
  | NOT_SET : action
  | ENCODE : action
  | DECODE : action
  deriving DecidableEq, Repr

/-- The configuration fields of the C++ class `huffman_runner`: `op`, `input`, `output`. -/
structure huffman_runner where
  op : action
  input : String
  output : String
  deriving DecidableEq, Repr

/-- The runner as its constructor leaves it: `op = action::NOT_SET`, empty file names. -/
def huffman_runner.init : huffman_runner :=
  ⟨action.NOT_SET, "", ""⟩

/-- The C++ constant `huffman_exception::MULTIPLE_ACTIONS`. -/
def MULTIPLE_ACTIONS : String :=
  "Multiple actions specified. Only one of -c or -u should be used."

/-- The C++ constant `huffman_exception::MULTIPLE_INPUTS`. -/
def MULTIPLE_INPUTS : String :=
  "Multiple input files specified. Only one of -f <path> or " ++
    "--file <path> should be used."

/-- The C++ constant `huffman_exception::MULTIPLE_OUTPUTS`. -/
def MULTIPLE_OUTPUTS : String :=
  "Multiple output files specified. Only one of -o <path> or " ++
    "--output <path> should be used."

/-- The C++ `huffman_runner::set_action`: the runner after the call, and the message of the
`huffman_exception` the call throws, if it throws. -/
def huffman_runner.set_action (r : huffman_runner) (a : action) :
    huffman_runner × Option String :=
  if r.op ≠ action.NOT_SET then (r, some MULTIPLE_ACTIONS)
  else (⟨a, r.input, r.output⟩, none)

/-- The C++ `huffman_runner::set_input_file`, in the same form; `input.empty()` is `input = ""`. -/
def huffman_runner.set_input_file (r : huffman_runner) (filename : String) :
    huffman_runner × Option String :=
  if r.input ≠ "" then (r, some MULTIPLE_INPUTS)
  else (⟨r.op, filename, r.output⟩, none)

/-- The C++ `huffman_runner::set_output_file`, in the same form. -/
def huffman_runner.set_output_file (r : huffman_runner) (filename : String) :
    huffman_runner × Option String :=
  if r.output ≠ "" then (r, some MULTIPLE_OUTPUTS)
  else (⟨r.op, r.input, filename⟩, none)

/-! ## Specification-level notions used by the theorems -/

/-- The height of a tree: the length of its longest root-to-leaf path. -/
def node.height : node → Nat
  | node.leaf _ => 0
  | node.internal l r => max l.height r.height + 1

/-- The symbols on the leaves of a tree, from left to right. -/
def node.leaves : node → List byte
  | node.leaf ch => [ch]
  | node.internal l r => l.leaves ++ r.leaves

/-- The entries the seeding loop puts into the heap, in the order of the loop. -/
def seed_list (freq : byte → Nat) : List subtree_ref :=
  ((List.finRange 256).filter (fun ch => freq ch ≠ 0)).map (fun ch => ⟨node.leaf ch, freq ch⟩)

/-- The merge of two heap entries, as the loop body builds it. -/
def merge_ref (e1 e2 : subtree_ref) : subtree_ref :=
  ⟨node.internal e1.subtree e2.subtree, e1.freq + e2.freq⟩

/-- The symbols with a non-zero entry in a frequency table, in increasing order. -/
def nonzero_syms (freq : byte → Nat) : List byte :=
  (List.finRange 256).filter (fun ch => freq ch ≠ 0)

/-- The path from the root of `t` to the leaf that holds `c`, as `build_codes_dfs` records it:
`false` for `go[0]`, `true` for `go[1]`; when `c` is on several leaves the last one visited. -/
def rel_code : node → byte → List Bool
  | node.leaf _, _ => []
  | node.internal l r, c =>
    if c ∈ r.leaves then true :: rel_code r c else false :: rel_code l c

/-- Walking down a tree along a bit sequence, `0` to `go[0]` and `1` to `go[1]` (the helper
`get_char` of the unit tests); `none` when the walk would leave a leaf. -/
def walk : node → List Bool → Option node
  | t, [] => some t
  | node.leaf _, _ :: _ => none
  | node.internal l _, false :: bs => walk l bs
  | node.internal _ r, true :: bs => walk r bs

/-- The frequency table the heap is seeded from: the counts of the buffer after the two
special cases. -/
def final_freq (data : List byte) : byte → Nat :=
  adjust_freq (count_freq data)

/-- The aggregate frequency of a tree: the sum of the frequencies of its leaf symbols. -/
def weight (freq : byte → Nat) (t : node) : Nat :=
  (t.leaves.map freq).sum

/-- The leaf symbols of all trees of a forest. -/
def forest_leaves (F : List subtree_ref) : List byte :=
  F.flatMap (fun e => e.subtree.leaves)

/-- The basic invariant of the heap during construction: the leaves of the trees in the heap are
exactly the symbols of non-zero frequency, each once, and every entry is keyed by the aggregate
frequency of its tree. -/
def heap_inv (freq : byte → Nat) (F : List subtree_ref) : Prop :=
  (forest_leaves F).Perm (nonzero_syms freq) ∧ ∀ e ∈ F, e.freq = weight freq e.subtree

/-- The successor of a byte with wrap-around: `static_cast<byte>(ch + 1)`. -/
def byte_succ (ch : byte) : byte :=
  Fin.ofNat (ch.val + 1)

/-- The weighted path length of a tree: the sum over its leaves of frequency times depth,
computed bottom-up (each level adds the aggregate frequency of the subtree once). -/
def cost (freq : byte → Nat) : node → Nat
  | node.leaf _ => 0
  | node.internal l r => cost freq l + cost freq r + weight freq l + weight freq r

/-- The depths of the leaves of a tree. -/
def depths : node → Multiset Nat
  | node.leaf _ => {0}
  | node.internal l r => (depths l + depths r).map (fun d => d + 1)

/-- The leaves of a tree as pairs (frequency of the symbol, depth of the leaf). -/
def leaf_pairs (freq : byte → Nat) : node → Multiset (Nat × Nat)
  | node.leaf c => {(freq c, 0)}
  | node.internal l r => (leaf_pairs freq l + leaf_pairs freq r).map (fun p => (p.1, p.2 + 1))

/-- The weighted path length of an assignment of depths to weights. -/
def pairs_cost (M : Multiset (Nat × Nat)) : Nat :=
  (M.map (fun p => p.1 * p.2)).sum

/-- The cost of a code table for a frequency table: the sum, over the symbols of non-zero
frequency, of frequency times code length. -/
def code_cost (freq : byte → Nat) (codes : byte → List Bool) : Nat :=
  ((nonzero_syms freq).map (fun c => freq c * (codes c).length)).sum

/-- The invariant behind optimality, for a bound `K`: some tree shape `S` and some assignment `M`
of the depths of `S` to the frequencies of the heap entries cost, together with the trees already
built, at most `K`. -/
def opt_inv (freq : byte → Nat) (K : Nat) (F : List subtree_ref) : Prop :=
  ∃ (S : node) (M : Multiset (Nat × Nat)),
    M.map Prod.snd = depths S ∧
    M.map Prod.fst = ((F.map subtree_ref.freq : List Nat) : Multiset Nat) ∧
    (F.map (fun e => cost freq e.subtree)).sum + pairs_cost M ≤ K

/-- All nodes of a tree (each given as the subtree it roots), in pre-order. -/
def node.subtrees : node → List node
  | node.leaf ch => [node.leaf ch]
  | node.internal l r => node.internal l r :: (l.subtrees ++ r.subtrees)

/-- At every internal node the aggregate frequency of the left subtree is at most that of the
right subtree. -/
def left_le_right (freq : byte → Nat) : node → Prop
  | node.leaf _ => True
  | node.internal l r => weight freq l ≤ weight freq r ∧ left_le_right freq l ∧ left_le_right freq r

/-- A tree of height at most `d` over the symbols of a list of at most `2^d` symbols, built by
halving the list; used as the tree the optimal one is compared with. -/
def balanced : Nat → List byte → node
  | 0, L => node.leaf (L.headD 0)
  | d + 1, L =>
    if L.length ≤ 1 then node.leaf (L.headD 0)
    else node.internal (balanced d (L.take (L.length / 2))) (balanced d (L.drop (L.length / 2)))

/-- The tree with every leaf symbol `c` replaced by `σ c`; same shape. -/
def relabel (σ : byte → byte) : node → node
  | node.leaf c => node.leaf (σ c)
  | node.internal l r => node.internal (relabel σ l) (relabel σ r)

/-! ## Bit / byte packing: round trips -/

theorem read_byte_loop_append (n : Nat) : ∀ (pos res : Nat) (l it : List Bool), l.length = n →
    ∃ r, read_byte_loop n pos res l = some (r, []) ∧
      read_byte_loop n pos res (l ++ it) = some (r, it) := by
  induction n with
  | zero =>
    intro pos res l it hl
    have : l = [] := List.length_eq_zero.1 hl
    subst this
    exact ⟨res, rfl, rfl⟩
  | succ n ih =>
    intro pos res l it hl
    cases l with
    | nil => simp at hl
    | cons b l =>
      simp only [List.length_cons, Nat.add_right_cancel_iff] at hl
      simpa only [read_byte_loop, List.cons_append] using ih (pos + 1) _ l it hl

set_option maxRecDepth 1000000 in
theorem read_byte_loop_byte_bits : ∀ b : byte,
    read_byte_loop BITS_IN_BYTE 0 0 (byte_bits b) = some (b.val, []) := by
  decide

theorem byte_bits_length (b : byte) : (byte_bits b).length = BITS_IN_BYTE := by
  simp [byte_bits]

theorem read_byte_byte_bits (b : byte) (it : List Bool) :
    read_byte (byte_bits b ++ it) = some (b, it) := by
  obtain ⟨r, h1, h2⟩ := read_byte_loop_append BITS_IN_BYTE 0 0 (byte_bits b) it (byte_bits_length b)
  rw [read_byte_loop_byte_bits] at h1
  simp only [Option.some.injEq, Prod.mk.injEq, and_true] at h1
  subst h1
  simp only [read_byte, h2]
  congr 2
  apply Fin.ext
  simp [Fin.ofNat]

set_option maxRecDepth 1000000 in
theorem byte_bits_read_byte_loop : ∀ b0 b1 b2 b3 b4 b5 b6 b7 : Bool,
    (read_byte_loop BITS_IN_BYTE 0 0 [b0, b1, b2, b3, b4, b5, b6, b7]).map
        (fun p => (byte_bits (Fin.ofNat p.1), p.2)) =
      some ([b0, b1, b2, b3, b4, b5, b6, b7], []) := by
  decide

theorem bytes_to_bits_cons (b : byte) (v : List byte) :
    bytes_to_bits (b :: v) = byte_bits b ++ bytes_to_bits v := by
  simp [bytes_to_bits]

theorem read_byte_of_length (l it : List Bool) (hl : l.length = BITS_IN_BYTE) :
    ∃ b, read_byte (l ++ it) = some (b, it) ∧ byte_bits b = l := by
  obtain ⟨r, h1, h2⟩ := read_byte_loop_append BITS_IN_BYTE 0 0 l it hl
  match l, hl with
  | [b0, b1, b2, b3, b4, b5, b6, b7], _ =>
    have h3 := byte_bits_read_byte_loop b0 b1 b2 b3 b4 b5 b6 b7
    rw [h1] at h3
    simp only [Option.map_some', Option.some.injEq, Prod.mk.injEq, and_true] at h3
    exact ⟨Fin.ofNat r, by simp only [read_byte, h2], h3⟩

theorem bits_to_bytes_loop_spec (n : Nat) : ∀ s : List Bool, s.length = BITS_IN_BYTE * n →
    ∃ v, bits_to_bytes_loop n s = some v ∧ bytes_to_bits v = s ∧ v.length = n := by
  induction n with
  | zero =>
    intro s hs
    have : s = [] := List.length_eq_zero.1 (by simpa using hs)
    subst this
    exact ⟨[], rfl, rfl, rfl⟩
  | succ n ih =>
    intro s hs
    have hsplit : s = s.take BITS_IN_BYTE ++ s.drop BITS_IN_BYTE := (List.take_append_drop _ _).symm
    have htake : (s.take BITS_IN_BYTE).length = BITS_IN_BYTE := by
      rw [List.length_take, hs]; simp only [BITS_IN_BYTE]; omega
    have hdrop : (s.drop BITS_IN_BYTE).length = BITS_IN_BYTE * n := by
      rw [List.length_drop, hs]; simp only [BITS_IN_BYTE]; omega
    obtain ⟨b, hb, hbits⟩ := read_byte_of_length _ (s.drop BITS_IN_BYTE) htake
    obtain ⟨v, hv, hvb, hvl⟩ := ih _ hdrop
    rw [← hsplit] at hb
    refine ⟨b :: v, ?_, ?_, by simp [hvl]⟩
    · simp only [bits_to_bytes_loop, hb, hv]
    · rw [bytes_to_bits_cons, hbits, hvb, ← hsplit]

theorem bits_to_bytes_spec (s : List Bool) (h : s.length % BITS_IN_BYTE = 0) :
    ∃ v, bits_to_bytes s = some v ∧ bytes_to_bits v = s ∧
      v.length = s.length / BITS_IN_BYTE := by
  have hlen : s.length = BITS_IN_BYTE * (s.length / BITS_IN_BYTE) := by
    have := Nat.div_add_mod s.length BITS_IN_BYTE
    omega
  obtain ⟨v, hv, hvb, hvl⟩ := bits_to_bytes_loop_spec _ s hlen
  exact ⟨v, by simp only [bits_to_bytes, h, if_true, hv], hvb, hvl⟩

theorem bytes_to_bits_length (v : List byte) :
    (bytes_to_bits v).length = BITS_IN_BYTE * v.length := by
  induction v with
  | nil => rfl
  | cons b v ih =>
    rw [bytes_to_bits_cons, List.length_append, byte_bits_length, ih, List.length_cons]
    ring

theorem bits_to_bytes_loop_bytes_to_bits (v : List byte) :
    bits_to_bytes_loop v.length (bytes_to_bits v) = some v := by
  induction v with
  | nil => rfl
  | cons b v ih =>
    rw [bytes_to_bits_cons, List.length_cons, bits_to_bytes_loop, read_byte_byte_bits]
    simp only [ih]

theorem bits_to_bytes_bytes_to_bits (v : List byte) :
    bits_to_bytes (bytes_to_bits v) = some v := by
  have h1 : (bytes_to_bits v).length % BITS_IN_BYTE = 0 := by
    rw [bytes_to_bits_length]; exact Nat.mul_mod_right _ _
  have h2 : (bytes_to_bits v).length / BITS_IN_BYTE = v.length := by
    rw [bytes_to_bits_length]; exact Nat.mul_div_cancel_left _ (by decide)
  simp only [bits_to_bytes, h1, if_true, h2, bits_to_bytes_loop_bytes_to_bits]

/-- Claim C3. For a bit sequence `s` whose length is a multiple of 8, `bits_to_bytes` succeeds and
`bytes_to_bits` maps its result back to `s`; and for every byte sequence `v`,
`bits_to_bytes (bytes_to_bits v)` succeeds with `v`. -/
theorem bytes_to_bits_bits_to_bytes_roundtrip :
    (∀ s : List Bool, s.length % BITS_IN_BYTE = 0 →
      ∃ v, bits_to_bytes s = some v ∧ bytes_to_bits v = s) ∧
    (∀ v : List byte, bits_to_bytes (bytes_to_bits v) = some v) := by
  refine ⟨fun s h => ?_, bits_to_bytes_bytes_to_bits⟩
  obtain ⟨v, hv, hvb, _⟩ := bits_to_bytes_spec s h
  exact ⟨v, hv, hvb⟩

/-- Witness for C3 on the sixteen bits of the unit test `bits_to_bytes_works`. -/
theorem bytes_to_bits_bits_to_bytes_roundtrip_witness :
    ([false, false, true, true, false, true, true, true,
      false, false, false, false, false, true, true, true] : List Bool).length % BITS_IN_BYTE = 0 ∧
    ∃ v, bits_to_bytes [false, false, true, true, false, true, true, true,
      false, false, false, false, false, true, true, true] = some v ∧
      bytes_to_bits v = [false, false, true, true, false, true, true, true,
        false, false, false, false, false, true, true, true] :=
  ⟨by decide, bytes_to_bits_bits_to_bytes_roundtrip.1 _ (by decide)⟩

theorem bits_to_bytes_with_padding_spec (s : List Bool) :
    ∃ w, bits_to_bytes_with_padding s =
        some (Fin.ofNat (BITS_IN_BYTE - s.length % BITS_IN_BYTE) :: w) ∧
      bytes_to_bits w =
        List.replicate (BITS_IN_BYTE - s.length % BITS_IN_BYTE) false ++ s ∧
      w.length = (s.length + (BITS_IN_BYTE - s.length % BITS_IN_BYTE)) / BITS_IN_BYTE := by
  have hp : (Fin.ofNat (BITS_IN_BYTE - s.length % BITS_IN_BYTE) : byte).val =
      BITS_IN_BYTE - s.length % BITS_IN_BYTE := by
    simp only [Fin.ofNat, BITS_IN_BYTE]
    omega
  have hlen : (List.replicate (BITS_IN_BYTE - s.length % BITS_IN_BYTE) false ++ s).length
      % BITS_IN_BYTE = 0 := by
    simp only [List.length_append, List.length_replicate, BITS_IN_BYTE]
    omega
  obtain ⟨w, hw, hwb, hwl⟩ := bits_to_bytes_spec _ hlen
  refine ⟨w, ?_, hwb, ?_⟩
  · simp only [bits_to_bytes_with_padding, hp, hw]
  · rw [hwl]; simp only [List.length_append, List.length_replicate]; congr 1; omega

theorem bytes_with_padding_to_bits_spec (s : List Bool) :
    ∃ bytes, bits_to_bytes_with_padding s = some bytes ∧
      bytes_with_padding_to_bits bytes = some s := by
  obtain ⟨w, hw, hwb, _⟩ := bits_to_bytes_with_padding_spec s
  have hp : (Fin.ofNat (BITS_IN_BYTE - s.length % BITS_IN_BYTE) : byte).val =
      BITS_IN_BYTE - s.length % BITS_IN_BYTE := by
    simp only [Fin.ofNat, BITS_IN_BYTE]
    omega
  refine ⟨_, hw, ?_⟩
  simp only [bytes_with_padding_to_bits, hwb, hp, List.length_append, List.length_replicate,
    Nat.le_add_right, if_true]
  rw [List.drop_left' (List.length_replicate _ _)]

/-- Claim C2. For every bit sequence `s`, packing with padding succeeds and unpacking the packed
bytes succeeds (the buffer is non-empty and the erased padding lies inside it) with result `s`. -/
theorem bytes_with_padding_to_bits_roundtrip (s : List Bool) :
    ∃ bytes, bits_to_bytes_with_padding s = some bytes ∧
      bytes_with_padding_to_bits bytes = some s :=
  bytes_with_padding_to_bits_spec s

/-! ## Tree serialisation and reconstruction -/

theorem tree_info_bits_append (n : Nat) : ∀ (ch : Nat) (info : List Bool),
    tree_info_bits n ch info = info ++ tree_info_bits n ch [] := by
  induction n with
  | zero => intro ch info; simp [tree_info_bits]
  | succ n ih =>
    intro ch info
    rw [tree_info_bits, ih, tree_info_bits, ih (ch >>> 1) ([] ++ _)]
    simp

set_option maxRecDepth 1000000 in
theorem tree_info_bits_eq_byte_bits : ∀ ch : byte,
    tree_info_bits BITS_IN_BYTE ch.val [] = byte_bits ch := by
  decide

theorem tree_info_dfs_append (t : node) : ∀ info : List Bool,
    tree_info_dfs t info = info ++ tree_info_dfs t [] := by
  induction t with
  | leaf ch =>
    intro info
    rw [tree_info_dfs, tree_info_bits_append, tree_info_dfs, tree_info_bits_append _ _ ([] ++ _)]
    simp
  | internal l r ihl ihr =>
    intro info
    rw [tree_info_dfs, ihr, ihl, tree_info_dfs, ihr (tree_info_dfs l _), ihl ([] ++ _)]
    simp

theorem tree_info_dfs_leaf (ch : byte) :
    tree_info_dfs (node.leaf ch) [] = true :: byte_bits ch := by
  rw [tree_info_dfs, tree_info_bits_append, tree_info_bits_eq_byte_bits]
  rfl

theorem tree_info_dfs_internal (l r : node) :
    tree_info_dfs (node.internal l r) [] =
      false :: (tree_info_dfs l [] ++ tree_info_dfs r []) := by
  rw [tree_info_dfs, tree_info_dfs_append r, tree_info_dfs_append l]
  simp

theorem tree_build_dfs_tree_info (t : node) : ∀ (fuel : Nat) (r : List Bool),
    t.height < fuel → tree_build_dfs fuel (tree_info_dfs t [] ++ r) = some (t, r) := by
  induction t with
  | leaf ch =>
    intro fuel r hf
    obtain ⟨fuel, rfl⟩ : ∃ k, fuel = k + 1 := ⟨fuel - 1, by omega⟩
    rw [tree_info_dfs_leaf, List.cons_append, tree_build_dfs, read_byte_byte_bits]
  | internal l r ihl ihr =>
    intro fuel rest hf
    obtain ⟨fuel, rfl⟩ : ∃ k, fuel = k + 1 := ⟨fuel - 1, by omega⟩
    simp only [node.height] at hf
    rw [tree_info_dfs_internal, List.cons_append, List.append_assoc, tree_build_dfs,
      ihl fuel _ (by omega)]
    simp only []
    rw [ihr fuel _ (by omega)]

theorem height_lt_tree_info_length (t : node) : t.height < (tree_info_dfs t []).length := by
  induction t with
  | leaf ch => rw [tree_info_dfs_leaf]; simp [node.height]
  | internal l r ihl ihr =>
    rw [tree_info_dfs_internal]
    simp only [node.height, List.length_cons, List.length_append]
    omega

theorem decoding_tree_construct_tree_info (t : node) (r : List Bool) :
    huffman_decoding_tree.construct (tree_info_dfs t [] ++ r) = some ⟨t, r⟩ := by
  have h := height_lt_tree_info_length t
  rw [huffman_decoding_tree.construct, tree_build_dfs_tree_info t _ r
    (by rw [List.length_append]; omega)]

/-! ## The construction of the encoding tree -/

theorem seed_heap_elems (pq : priority_queue) (freq : byte → Nat) :
    (pq.elems (seed_heap pq freq)).Perm (seed_list freq) := by
  have key : ∀ (l : List byte) (q : pq.Q),
      (pq.elems (l.foldl (fun heap ch =>
        if freq ch ≠ 0 then pq.emplace heap ⟨node.leaf ch, freq ch⟩ else heap) q)).Perm
      (pq.elems q ++ (l.filter (fun ch => freq ch ≠ 0)).map
        (fun ch => ⟨node.leaf ch, freq ch⟩)) := by
    intro l
    induction l with
    | nil => intro q; simp
    | cons c l ih =>
      intro q
      rw [List.foldl_cons]
      refine (ih _).trans ?_
      by_cases hc : freq c ≠ 0
      · simp only [hc, if_true, List.filter_cons, decide_True, List.map_cons, ne_eq,
          not_false_eq_true]
        refine ((pq.elems_emplace q _).append_right _).trans ?_
        simp only [List.cons_append]
        exact List.perm_middle.symm
      · simp only [hc, if_false, List.filter_cons, decide_False]
        exact List.Perm.refl _
  have := key (List.finRange 256) pq.empty
  rw [pq.elems_empty, List.nil_append] at this
  exact this

theorem get_from_heap_spec (pq : priority_queue) (q : pq.Q) (hq : pq.elems q ≠ []) :
    ∃ e, get_from_heap pq q = some ((e.subtree, e.freq), pq.pop q) ∧
      (e :: pq.elems (pq.pop q)).Perm (pq.elems q) ∧ ∀ x ∈ pq.elems q, e.freq ≤ x.freq := by
  obtain ⟨e, htop, hperm, hmin⟩ := pq.top_pop q hq
  refine ⟨e, ?_, hperm, ?_⟩
  · have hsize : pq.size q ≠ 0 := by
      rw [pq.size_eq]
      exact fun h => hq (List.length_eq_zero.1 h)
    simp only [get_from_heap, hsize, if_false, htop]
  · intro x hx
    have := hmin x hx
    simpa only [subtree_ref.lt, decide_eq_false_iff_not, not_lt, gt_iff_lt] using this

/-- Induction principle for the merge loop: a property of the multiset of heap entries that
survives the merge of a least entry with a least entry of the rest holds for the single entry the
loop ends with; and the loop does end, within `fuel` iterations. -/
theorem merge_loop_spec (pq : priority_queue) (P : List subtree_ref → Prop)
    (hperm : ∀ l1 l2, l1.Perm l2 → P l1 → P l2)
    (hstep : ∀ e1 e2 F, P (e1 :: e2 :: F) → (∀ x ∈ e2 :: F, e1.freq ≤ x.freq) →
      (∀ x ∈ F, e2.freq ≤ x.freq) → P (merge_ref e1 e2 :: F)) :
    ∀ (fuel : Nat) (q : pq.Q), pq.elems q ≠ [] → (pq.elems q).length ≤ fuel + 1 →
      P (pq.elems q) →
      ∃ q1 e, merge_loop pq fuel q = some q1 ∧ pq.elems q1 = [e] ∧ P [e] := by
  intro fuel
  induction fuel with
  | zero =>
    intro q hne hlen hP
    have h1 : (pq.elems q).length = 1 := by
      have : (pq.elems q).length ≠ 0 := fun h => hne (List.length_eq_zero.1 h)
      omega
    obtain ⟨e, he⟩ := List.length_eq_one.1 h1
    refine ⟨q, e, ?_, he, he ▸ hP⟩
    simp only [merge_loop, pq.size_eq, h1, gt_iff_lt, lt_self_iff_false, if_false]
  | succ fuel ih =>
    intro q hne hlen hP
    by_cases hsz : pq.size q > 1
    · obtain ⟨e1, hg1, hp1, hmin1⟩ := get_from_heap_spec pq q hne
      have hlen1 : (pq.elems (pq.pop q)).length + 1 = (pq.elems q).length := by
        simpa using hp1.length_eq
      have hne1 : pq.elems (pq.pop q) ≠ [] := by
        intro h
        rw [h, List.length_nil, ← pq.size_eq] at hlen1
        omega
      obtain ⟨e2, hg2, hp2, hmin2⟩ := get_from_heap_spec pq (pq.pop q) hne1
      have hlen2 : (pq.elems (pq.pop (pq.pop q))).length + 1 = (pq.elems (pq.pop q)).length := by
        simpa using hp2.length_eq
      have hperm12 : (e1 :: e2 :: pq.elems (pq.pop (pq.pop q))).Perm (pq.elems q) :=
        (List.Perm.cons e1 hp2).trans hp1
      have hP1 : P (e1 :: e2 :: pq.elems (pq.pop (pq.pop q))) := hperm _ _ hperm12.symm hP
      have hm1 : ∀ x ∈ e2 :: pq.elems (pq.pop (pq.pop q)), e1.freq ≤ x.freq := by
        intro x hx
        exact hmin1 x (hp1.subset (List.mem_cons_of_mem _ (hp2.subset hx)))
      have hm2 : ∀ x ∈ pq.elems (pq.pop (pq.pop q)), e2.freq ≤ x.freq := by
        intro x hx
        exact hmin2 x (hp2.subset (List.mem_cons_of_mem _ hx))
      have hP2 := hstep e1 e2 _ hP1 hm1 hm2
      have hpe := pq.elems_emplace (pq.pop (pq.pop q)) (merge_ref e1 e2)
      have hP3 := hperm _ _ hpe.symm hP2
      have hne3 : pq.elems (pq.emplace (pq.pop (pq.pop q)) (merge_ref e1 e2)) ≠ [] := by
        intro h
        have := hpe.length_eq
        rw [h] at this
        simp at this
      have hlen3 : (pq.elems (pq.emplace (pq.pop (pq.pop q)) (merge_ref e1 e2))).length
          ≤ fuel + 1 := by
        rw [hpe.length_eq, List.length_cons]
        omega
      obtain ⟨q1, e, hloop, he, hPe⟩ := ih _ hne3 hlen3 hP3
      refine ⟨q1, e, ?_, he, hPe⟩
      simp only [merge_loop, hsz, if_true, hg1, hg2]
      exact hloop
    · have h1 : (pq.elems q).length = 1 := by
        have : (pq.elems q).length ≠ 0 := fun h => hne (List.length_eq_zero.1 h)
        rw [pq.size_eq] at hsz
        omega
      obtain ⟨e, he⟩ := List.length_eq_one.1 h1
      refine ⟨q, e, ?_, he, he ▸ hP⟩
      simp only [merge_loop, hsz, if_false]

/-- The constructor succeeds whenever the adjusted table has a non-zero entry, and every
property of the heap contents that survives the loop body holds for the final tree. -/
theorem construct_spec (pq : priority_queue) (data : List byte) (P : List subtree_ref → Prop)
    (hperm : ∀ l1 l2, l1.Perm l2 → P l1 → P l2)
    (hstep : ∀ e1 e2 F, P (e1 :: e2 :: F) → (∀ x ∈ e2 :: F, e1.freq ≤ x.freq) →
      (∀ x ∈ F, e2.freq ≤ x.freq) → P (merge_ref e1 e2 :: F))
    (hne : seed_list (adjust_freq (count_freq data)) ≠ [])
    (h0 : P (seed_list (adjust_freq (count_freq data)))) :
    ∃ e, huffman_encoding_tree.construct pq data = some ⟨e.subtree, build_codes e.subtree⟩ ∧
      P [e] := by
  have hseed := seed_heap_elems pq (adjust_freq (count_freq data))
  have hne1 : pq.elems (seed_heap pq (adjust_freq (count_freq data))) ≠ [] := by
    intro h
    rw [h] at hseed
    exact hne hseed.nil_eq.symm
  obtain ⟨q1, e, hloop, he, hPe⟩ := merge_loop_spec pq P hperm hstep
    (pq.size (seed_heap pq (adjust_freq (count_freq data)))) _ hne1
    (by rw [pq.size_eq]; omega) (hperm _ _ hseed.symm h0)
  have hne2 : pq.elems q1 ≠ [] := by rw [he]; simp
  obtain ⟨e1, hg, hp, _⟩ := get_from_heap_spec pq q1 hne2
  have : e1 = e := by
    have := hp.subset (List.mem_cons_self _ _)
    rw [he] at this
    simpa using this
  subst this
  exact ⟨e1, by simp only [huffman_encoding_tree.construct, hloop, hg], hPe⟩

/-! ## The frequency table and its adjustment -/

theorem incr_same (freq : byte → Nat) (ch : byte) : incr freq ch ch = freq ch + 1 := by
  simp [incr]

theorem incr_ne (freq : byte → Nat) (ch c : byte) (h : c ≠ ch) : incr freq ch c = freq c := by
  simp [incr, Function.update_noteq h]

theorem le_incr (freq : byte → Nat) (ch c : byte) : freq c ≤ incr freq ch c := by
  by_cases h : c = ch
  · subst h; rw [incr_same]; omega
  · rw [incr_ne _ _ _ h]

theorem count_freq_eq (data : List byte) (c : byte) : count_freq data c = data.count c := by
  have key : ∀ (l : List byte) (init : byte → Nat),
      l.foldl incr init c = init c + l.count c := by
    intro l
    induction l with
    | nil => intro init; simp
    | cons x l ih =>
      intro init
      rw [List.foldl_cons, ih]
      by_cases hx : c = x
      · subst hx
        rw [incr_same, List.count_cons_self]
        omega
      · rw [incr_ne _ _ _ hx, List.count_cons_of_ne hx]
  rw [count_freq, key]
  simp

theorem nonzero_syms_nodup (freq : byte → Nat) : (nonzero_syms freq).Nodup :=
  (List.nodup_finRange 256).filter _

theorem mem_nonzero_syms (freq : byte → Nat) (c : byte) :
    c ∈ nonzero_syms freq ↔ freq c ≠ 0 := by
  simp [nonzero_syms, List.mem_filter, List.mem_finRange]

theorem seed_list_eq (freq : byte → Nat) :
    seed_list freq = (nonzero_syms freq).map (fun ch => ⟨node.leaf ch, freq ch⟩) := rfl

theorem count_zero_add_filter (freq : byte → Nat) (l : List byte) :
    (l.map freq).count 0 + (l.filter (fun ch => freq ch ≠ 0)).length = l.length := by
  induction l with
  | nil => rfl
  | cons c l ih =>
    rw [List.map_cons, List.filter_cons]
    by_cases hc : freq c = 0
    · have hd : decide (freq c ≠ 0) = false := by simp [hc]
      rw [hd, hc, List.count_cons_self, List.length_cons]
      simp only [Bool.false_eq_true, if_false]
      omega
    · have hd : decide (freq c ≠ 0) = true := by simp [hc]
      have hc1 : (0 : Nat) ≠ freq c := fun h => hc h.symm
      rw [hd, List.count_cons_of_ne hc1, List.length_cons]
      simp only [if_true, List.length_cons]
      omega

theorem char_cnt_eq (freq : byte → Nat) : char_cnt freq = (nonzero_syms freq).length := by
  have h := count_zero_add_filter freq (List.finRange 256)
  rw [List.length_finRange] at h
  have h4 : TABLE_SIZE = 256 := by decide
  rw [char_cnt, nonzero_syms, h4]
  omega

set_option maxRecDepth 100000 in
theorem find_nonzero_spec (freq : byte → Nat) (h : ∃ c, freq c ≠ 0) :
    ∃ c : byte, find_nonzero freq = c.val ∧ freq c ≠ 0 ∧ ∀ d : byte, d < c → freq d = 0 := by
  cases hf : (List.finRange 256).find? (fun c => freq c != 0) with
  | none =>
    obtain ⟨c, hc⟩ := h
    have := List.find?_eq_none.1 hf c (List.mem_finRange c)
    simp at this
    exact absurd this hc
  | some c =>
    refine ⟨c, by rw [find_nonzero, hf], ?_, ?_⟩
    · have := List.find?_some hf
      simpa using this
    · intro d hd
      by_contra hne
      rw [List.find?_eq_some] at hf
      obtain ⟨_, as, bs, hab, hall⟩ := hf
      have hdmem : d ∈ as ++ c :: bs := hab ▸ List.mem_finRange d
      have hsorted : (as ++ c :: bs).Pairwise (· < ·) := by
        rw [← hab]
        exact List.pairwise_lt_finRange 256
      rcases List.mem_append.1 hdmem with hd1 | hd1
      · have := hall d hd1
        simp at this
        exact hne this
      · rcases List.mem_cons.1 hd1 with rfl | hd2
        · exact lt_irrefl _ hd
        · have hcd : c < d := by
            have h5 := (List.pairwise_append.1 hsorted).2.1
            exact (List.pairwise_cons.1 h5).1 d hd2
          exact lt_irrefl _ (lt_trans hd hcd)

theorem byte_succ_ne (c : byte) : (Fin.ofNat (c.val + 1) : byte) ≠ c := by
  intro h
  have := congrArg Fin.val h
  simp only [Fin.ofNat] at this
  have := c.isLt
  omega

theorem byte_ofNat_val (c : byte) : (Fin.ofNat c.val : byte) = c := by
  apply Fin.ext
  simp only [Fin.ofNat]
  exact Nat.mod_eq_of_lt c.isLt

theorem adjust_freq_ge (freq : byte → Nat) (c : byte) : freq c ≤ adjust_freq freq c := by
  unfold adjust_freq
  simp only []
  split_ifs
  · exact Nat.le_trans (le_incr freq 0 c) (le_incr _ _ c)
  · exact le_incr _ _ c
  · exact le_incr _ _ c
  · exact Nat.le_refl _

theorem adjust_freq_of_two (freq : byte → Nat) (h : 2 ≤ char_cnt freq) :
    adjust_freq freq = freq := by
  have h0 : ¬ char_cnt freq = 0 := by omega
  have h1 : ¬ char_cnt freq ≤ 1 := by omega
  simp only [adjust_freq, h0, h1, if_false]

theorem exists_ne_zero_of_char_cnt (freq : byte → Nat) (h : char_cnt freq ≠ 0) :
    ∃ c, freq c ≠ 0 := by
  rw [char_cnt_eq] at h
  obtain ⟨c, hc⟩ := List.exists_mem_of_length_pos (Nat.pos_of_ne_zero h)
  exact ⟨c, (mem_nonzero_syms freq c).1 hc⟩

theorem adjust_freq_two (freq : byte → Nat) :
    ∃ a b : byte, a ≠ b ∧ adjust_freq freq a ≠ 0 ∧ adjust_freq freq b ≠ 0 := by
  by_cases h2 : 2 ≤ char_cnt freq
  · rw [adjust_freq_of_two freq h2]
    rw [char_cnt_eq] at h2
    match hl : nonzero_syms freq, h2 with
    | a :: b :: l, _ =>
      have hnd := nonzero_syms_nodup freq
      rw [hl] at hnd
      refine ⟨a, b, ?_, ?_, ?_⟩
      · intro hab
        subst hab
        simp at hnd
      · exact (mem_nonzero_syms freq a).1 (by rw [hl]; simp)
      · exact (mem_nonzero_syms freq b).1 (by rw [hl]; simp)
  · have h1 : char_cnt freq ≤ 1 := by omega
    have hex : ∃ c, (if char_cnt freq = 0 then incr freq 0 else freq) c ≠ 0 := by
      by_cases h0 : char_cnt freq = 0
      · exact ⟨0, by simp [h0, incr_same]⟩
      · simpa only [h0, if_false] using exists_ne_zero_of_char_cnt freq h0
    obtain ⟨c, hc, hcne, _⟩ := find_nonzero_spec _ hex
    refine ⟨c, Fin.ofNat (c.val + 1), (byte_succ_ne c).symm, ?_, ?_⟩
    · simp only [adjust_freq, h1, if_true, hc, byte_ofNat_val]
      rw [incr_ne _ _ _ (byte_succ_ne c).symm]
      exact hcne
    · simp only [adjust_freq, h1, if_true, hc, byte_ofNat_val, incr_same]
      omega

theorem seed_list_length_ge (freq : byte → Nat) : 2 ≤ (seed_list (adjust_freq freq)).length := by
  obtain ⟨a, b, hab, ha, hb⟩ := adjust_freq_two freq
  rw [seed_list_eq, List.length_map]
  have hsub : [a, b].Subperm (nonzero_syms (adjust_freq freq)) := by
    apply List.subperm_of_subset
    · simp [hab]
    · intro x hx
      simp only [List.mem_cons, List.mem_singleton, List.not_mem_nil, or_false] at hx
      rcases hx with rfl | rfl
      · exact (mem_nonzero_syms _ _).2 ha
      · exact (mem_nonzero_syms _ _).2 hb
  simpa using hsub.length_le

/-! ## The code table -/

theorem build_codes_dfs_eq (t : node) : ∀ (cur : List Bool) (codes : byte → List Bool) (c : byte),
    build_codes_dfs t cur codes c = if c ∈ t.leaves then cur ++ rel_code t c else codes c := by
  induction t with
  | leaf ch =>
    intro cur codes c
    by_cases h : c = ch
    · subst h
      simp [build_codes_dfs, node.leaves, rel_code]
    · simp [build_codes_dfs, node.leaves, rel_code, h, Function.update_noteq h]
  | internal l r ihl ihr =>
    intro cur codes c
    rw [build_codes_dfs, ihr, ihl]
    by_cases hr : c ∈ r.leaves
    · simp [node.leaves, rel_code, hr]
    · by_cases hl : c ∈ l.leaves
      · simp [node.leaves, rel_code, hr, hl]
      · simp [node.leaves, hr, hl]

theorem build_codes_eq (t : node) (c : byte) :
    build_codes t c = if c ∈ t.leaves then rel_code t c else [] := by
  rw [build_codes, build_codes_dfs_eq]
  simp

theorem walk_rel_code (t : node) : ∀ c : byte, c ∈ t.leaves →
    walk t (rel_code t c) = some (node.leaf c) := by
  induction t with
  | leaf ch =>
    intro c hc
    simp only [node.leaves, List.mem_singleton] at hc
    subst hc
    rfl
  | internal l r ihl ihr =>
    intro c hc
    simp only [node.leaves, List.mem_append] at hc
    by_cases hr : c ∈ r.leaves
    · simp only [rel_code, hr, if_true, walk]
      exact ihr c hr
    · simp only [rel_code, hr, if_false, walk]
      exact ihl c (hc.resolve_right hr)

theorem decode_char_dfs_rel_code (t : node) : ∀ (c : byte) (rest : List Bool), c ∈ t.leaves →
    decode_char_dfs t (rel_code t c ++ rest) = some (c, rest) := by
  induction t with
  | leaf ch =>
    intro c rest hc
    simp only [node.leaves, List.mem_singleton] at hc
    subst hc
    rfl
  | internal l r ihl ihr =>
    intro c rest hc
    simp only [node.leaves, List.mem_append] at hc
    by_cases hr : c ∈ r.leaves
    · simp only [rel_code, hr, if_true, List.cons_append, decode_char_dfs]
      exact ihr c rest hr
    · simp only [rel_code, hr, if_false, List.cons_append, decode_char_dfs]
      exact ihl c rest (hc.resolve_right hr)

theorem rel_code_not_prefix (t : node) (c1 c2 : byte) (h1 : c1 ∈ t.leaves) (h2 : c2 ∈ t.leaves)
    (hne : c1 ≠ c2) : ¬ rel_code t c1 <+: rel_code t c2 := by
  rintro ⟨rest, hrest⟩
  have e1 := decode_char_dfs_rel_code t c1 rest h1
  have e2 := decode_char_dfs_rel_code t c2 [] h2
  rw [hrest] at e1
  rw [List.append_nil] at e2
  rw [e1] at e2
  simp only [Option.some.injEq, Prod.mk.injEq] at e2
  exact hne e2.1

theorem rel_code_internal_ne_nil (l r : node) (c : byte) :
    rel_code (node.internal l r) c ≠ [] := by
  simp only [rel_code]
  split_ifs <;> simp

theorem rel_code_length_le_height (t : node) (c : byte) : (rel_code t c).length ≤ t.height := by
  induction t with
  | leaf ch => simp [rel_code]
  | internal l r ihl ihr =>
    simp only [rel_code, node.height]
    split_ifs
    · simp only [List.length_cons]; omega
    · simp only [List.length_cons]; omega

/-! ## The basic invariant of the construction -/

theorem heap_inv_perm (freq : byte → Nat) (l1 l2 : List subtree_ref) (h : l1.Perm l2)
    (h1 : heap_inv freq l1) : heap_inv freq l2 :=
  ⟨(List.Perm.flatMap_right _ h.symm).trans h1.1, fun e he => h1.2 e (h.symm.subset he)⟩

theorem weight_internal (freq : byte → Nat) (l r : node) :
    weight freq (node.internal l r) = weight freq l + weight freq r := by
  simp [weight, node.leaves]

theorem heap_inv_step (freq : byte → Nat) (e1 e2 : subtree_ref) (F : List subtree_ref)
    (h : heap_inv freq (e1 :: e2 :: F)) : heap_inv freq (merge_ref e1 e2 :: F) := by
  refine ⟨?_, ?_⟩
  · have := h.1
    simpa [forest_leaves, merge_ref, node.leaves] using this
  · intro e he
    rcases List.mem_cons.1 he with rfl | he
    · simp only [merge_ref, weight_internal]
      rw [h.2 e1 (by simp), h.2 e2 (by simp)]
    · exact h.2 e (by simp [he])

theorem heap_inv_seed (freq : byte → Nat) : heap_inv freq (seed_list freq) := by
  refine ⟨?_, ?_⟩
  · have : forest_leaves (seed_list freq) = nonzero_syms freq := by
      rw [seed_list_eq, forest_leaves]
      generalize nonzero_syms freq = l
      induction l with
      | nil => rfl
      | cons c l ih => simp [List.flatMap_cons, node.leaves, ih]
    rw [this]
  · intro e he
    rw [seed_list_eq, List.mem_map] at he
    obtain ⟨c, _, rfl⟩ := he
    simp [weight, node.leaves]

theorem seed_list_ne_nil (data : List byte) : seed_list (final_freq data) ≠ [] := by
  intro h
  have := seed_list_length_ge (count_freq data)
  rw [final_freq] at h
  rw [h] at this
  simp at this

/-- The constructor always succeeds; its tree satisfies the basic invariant and every further
property of the heap contents that survives the loop body. -/
theorem construct_inv (pq : priority_queue) (data : List byte) (P : List subtree_ref → Prop)
    (hperm : ∀ l1 l2, l1.Perm l2 → P l1 → P l2)
    (hstep : ∀ e1 e2 F, heap_inv (final_freq data) (e1 :: e2 :: F) → P (e1 :: e2 :: F) →
      (∀ x ∈ e2 :: F, e1.freq ≤ x.freq) → (∀ x ∈ F, e2.freq ≤ x.freq) →
      P (merge_ref e1 e2 :: F))
    (h0 : P (seed_list (final_freq data))) :
    ∃ e, huffman_encoding_tree.construct pq data = some ⟨e.subtree, build_codes e.subtree⟩ ∧
      heap_inv (final_freq data) [e] ∧ P [e] := by
  have := construct_spec pq data (fun F => heap_inv (final_freq data) F ∧ P F)
    (fun l1 l2 h h1 => ⟨heap_inv_perm _ l1 l2 h h1.1, hperm l1 l2 h h1.2⟩)
    (fun e1 e2 F h hm1 hm2 => ⟨heap_inv_step _ e1 e2 F h.1, hstep e1 e2 F h.1 h.2 hm1 hm2⟩)
    (seed_list_ne_nil data) ⟨heap_inv_seed _, h0⟩
  obtain ⟨e, he, h1, h2⟩ := this
  exact ⟨e, he, h1, h2⟩

theorem heap_inv_singleton (freq : byte → Nat) (e : subtree_ref) (h : heap_inv freq [e]) :
    e.subtree.leaves.Perm (nonzero_syms freq) := by
  have := h.1
  simpa [forest_leaves] using this

theorem leaves_length_pos (t : node) : 0 < t.leaves.length := by
  induction t with
  | leaf ch => simp [node.leaves]
  | internal l r ihl _ => simp only [node.leaves, List.length_append]; omega

/-- The facts about the constructed encoding tree that the code-table claims rest on: the
constructor succeeds, the table is the one `build_codes` derives from the tree, the leaves are
the symbols of non-zero adjusted frequency, each once, and the root is internal. -/
theorem construct_basic (pq : priority_queue) (data : List byte) :
    ∃ l r, huffman_encoding_tree.construct pq data =
        some ⟨node.internal l r, build_codes (node.internal l r)⟩ ∧
      (node.internal l r).leaves.Perm (nonzero_syms (final_freq data)) := by
  obtain ⟨e, he, hinv, _⟩ := construct_inv pq data (fun _ => True) (fun _ _ _ _ => trivial)
    (fun _ _ _ _ _ _ _ => trivial) trivial
  have hl := heap_inv_singleton _ e hinv
  have hlen : 2 ≤ e.subtree.leaves.length := by
    rw [hl.length_eq]
    have := seed_list_length_ge (count_freq data)
    rwa [seed_list_eq, List.length_map] at this
  cases hs : e.subtree with
  | leaf ch => rw [hs] at hlen; simp [node.leaves] at hlen
  | internal l r =>
    rw [hs] at he hl
    exact ⟨l, r, he, hl⟩

theorem mem_final_freq (data : List byte) (c : byte) (h : c ∈ data) :
    c ∈ nonzero_syms (final_freq data) := by
  rw [mem_nonzero_syms, final_freq]
  have h1 := adjust_freq_ge (count_freq data) c
  rw [count_freq_eq] at h1
  have h2 : 0 < data.count c := List.count_pos_iff.2 h
  omega

/-! ## The adjusted frequency table, case by case -/

theorem char_cnt_le_one_of_unique (freq : byte → Nat) (a : byte)
    (h : ∀ x, freq x ≠ 0 → x = a) : char_cnt freq ≤ 1 := by
  rw [char_cnt_eq]
  have hsub : (nonzero_syms freq).Subperm [a] := by
    apply List.subperm_of_subset (nonzero_syms_nodup freq)
    intro x hx
    rw [List.mem_singleton]
    exact h x ((mem_nonzero_syms freq x).1 hx)
  simpa using hsub.length_le

theorem char_cnt_ne_zero_of_ne_zero (freq : byte → Nat) (a : byte) (h : freq a ≠ 0) :
    char_cnt freq ≠ 0 := by
  rw [char_cnt_eq]
  have := List.length_pos_of_mem ((mem_nonzero_syms freq a).2 h)
  omega

theorem char_cnt_ge_two (freq : byte → Nat) (a b : byte) (hab : a ≠ b) (ha : freq a ≠ 0)
    (hb : freq b ≠ 0) : 2 ≤ char_cnt freq := by
  rw [char_cnt_eq]
  have hsub : [a, b].Subperm (nonzero_syms freq) := by
    apply List.subperm_of_subset
    · simp [hab]
    · intro x hx
      simp only [List.mem_cons, List.mem_singleton, List.not_mem_nil, or_false] at hx
      rcases hx with rfl | rfl
      · exact (mem_nonzero_syms _ _).2 ha
      · exact (mem_nonzero_syms _ _).2 hb
  simpa using hsub.length_le

theorem find_nonzero_unique (freq : byte → Nat) (a : byte) (ha : freq a ≠ 0)
    (h : ∀ x, freq x ≠ 0 → x = a) : (Fin.ofNat (find_nonzero freq) : byte) = a := by
  obtain ⟨c, hc, hcne, _⟩ := find_nonzero_spec freq ⟨a, ha⟩
  rw [hc, byte_ofNat_val]
  exact h c hcne

theorem adjust_freq_unique (freq : byte → Nat) (a : byte) (ha : freq a ≠ 0)
    (h : ∀ x, freq x ≠ 0 → x = a) : adjust_freq freq = incr freq (byte_succ a) := by
  have h1 := char_cnt_le_one_of_unique freq a h
  have h0 := char_cnt_ne_zero_of_ne_zero freq a ha
  simp only [adjust_freq, h0, h1, if_true, if_false, find_nonzero_unique freq a ha h, byte_succ]

theorem char_cnt_zero (freq : byte → Nat) (h : ∀ x, freq x = 0) : char_cnt freq = 0 := by
  rw [char_cnt_eq]
  apply List.length_eq_zero.2
  apply List.eq_nil_iff_forall_not_mem.2
  intro x hx
  exact (mem_nonzero_syms freq x).1 hx (h x)

theorem adjust_freq_zero (freq : byte → Nat) (h : ∀ x, freq x = 0) :
    adjust_freq freq = incr (incr freq 0) 1 := by
  have h0 := char_cnt_zero freq h
  have hz : incr freq 0 0 ≠ 0 := by rw [incr_same]; omega
  have hu : ∀ x, incr freq 0 x ≠ 0 → x = 0 := by
    intro x hx
    by_contra hne
    rw [incr_ne _ _ _ hne] at hx
    exact hx (h x)
  have hf := find_nonzero_unique (incr freq 0) 0 hz hu
  have h1 : (Fin.ofNat ((0 : byte).val + 1) : byte) = 1 := rfl
  simp only [adjust_freq, h0, if_true, Nat.zero_le, hf, h1]

theorem final_freq_nil (c : byte) : final_freq [] c = if c = 0 ∨ c = 1 then 1 else 0 := by
  have h : ∀ x, count_freq [] x = 0 := fun _ => rfl
  rw [final_freq, adjust_freq_zero _ h]
  by_cases h1 : c = 1
  · subst h1
    rw [incr_same, incr_ne _ _ _ (by decide), h]
    simp
  · rw [incr_ne _ _ _ h1]
    by_cases h0 : c = 0
    · subst h0
      rw [incr_same, h]
      simp
    · rw [incr_ne _ _ _ h0, h]
      simp [h0, h1]

theorem final_freq_replicate (n : Nat) (a c : byte) :
    final_freq (List.replicate (n + 1) a) c =
      if c = a then n + 1 else if c = byte_succ a then 1 else 0 := by
  have hf : ∀ x, count_freq (List.replicate (n + 1) a) x = if x = a then n + 1 else 0 := by
    intro x
    rw [count_freq_eq, List.count_replicate]
    by_cases hx : x = a
    · subst hx; simp
    · have hx1 : ¬ a = x := fun h => hx h.symm
      simp [hx, hx1]
  have ha : count_freq (List.replicate (n + 1) a) a ≠ 0 := by rw [hf]; simp
  have hu : ∀ x, count_freq (List.replicate (n + 1) a) x ≠ 0 → x = a := by
    intro x hx
    rw [hf] at hx
    by_contra hne
    simp [hne] at hx
  rw [final_freq, adjust_freq_unique _ a ha hu]
  by_cases hc : c = byte_succ a
  · subst hc
    have hne : byte_succ a ≠ a := byte_succ_ne a
    rw [incr_same, hf]
    simp [hne]
  · rw [incr_ne _ _ _ hc, hf]
    simp [hc]

theorem final_freq_of_two (data : List byte) (a b : byte) (ha : a ∈ data) (hb : b ∈ data)
    (hab : a ≠ b) : final_freq data = count_freq data := by
  apply adjust_freq_of_two
  apply char_cnt_ge_two _ a b hab
  · rw [count_freq_eq]; exact Nat.pos_iff_ne_zero.1 (List.count_pos_iff.2 ha)
  · rw [count_freq_eq]; exact Nat.pos_iff_ne_zero.1 (List.count_pos_iff.2 hb)

/-! ## Claims about the tree topology and the code table -/

/-- Claim C4. For every buffer and every bit sequence `r`, the encoding tree is built, and the
decoding tree constructed from its `get_tree_info()` followed by `r` has exactly the same tree
(same shape, same order of children, same symbols) and its cursor at the first bit of `r`. -/
theorem decoding_tree_of_tree_info (pq : priority_queue) (data : List byte) (r : List Bool) :
    ∃ t, huffman_encoding_tree.construct pq data = some t ∧
      huffman_decoding_tree.construct (t.get_tree_info ++ r) = some ⟨t.tree, r⟩ := by
  obtain ⟨l, rt, ht, _⟩ := construct_basic pq data
  exact ⟨_, ht, decoding_tree_construct_tree_info _ r⟩

/-- Claim C5. For a byte `c` of the buffer and any bits `r`: the decoding tree reconstructed from
the serialized topology followed by `get_code(c)` and `r` has its cursor at `get_code(c) ++ r`,
and `decode_char` returns `c` and moves the cursor to `r`, that is, past exactly the bits of
`get_code(c)`. -/
theorem decode_char_get_code (pq : priority_queue) (data : List byte) (c : byte)
    (r : List Bool) (hc : c ∈ data) :
    ∃ t d, huffman_encoding_tree.construct pq data = some t ∧
      huffman_decoding_tree.construct (t.get_tree_info ++ (t.get_code c ++ r)) = some d ∧
      d.get_it = t.get_code c ++ r ∧
      d.decode_char = some (c, ⟨d.tree, r⟩) := by
  obtain ⟨l, rt, ht, hl⟩ := construct_basic pq data
  have hmem : c ∈ (node.internal l rt).leaves := hl.symm.subset (mem_final_freq data c hc)
  refine ⟨_, _, ht, decoding_tree_construct_tree_info _ _, rfl, ?_⟩
  simp only [huffman_decoding_tree.decode_char, huffman_encoding_tree.get_code]
  rw [build_codes_eq, if_pos hmem, decode_char_dfs_rel_code _ c r hmem]

/-- Witness for C5: the byte `97` of the buffer `[97, 98, 97]`, followed by no further bits. -/
theorem decode_char_get_code_witness :
    (97 : byte) ∈ ([97, 98, 97] : List byte) ∧
    ∃ t d, huffman_encoding_tree.construct list_queue [97, 98, 97] = some t ∧
      huffman_decoding_tree.construct (t.get_tree_info ++ (t.get_code 97 ++ [])) = some d ∧
      d.get_it = t.get_code 97 ++ [] ∧
      d.decode_char = some (97, ⟨d.tree, []⟩) :=
  ⟨by decide, decode_char_get_code list_queue [97, 98, 97] 97 [] (by decide)⟩

/-- Claim C6. For every buffer the encoding tree is built, and among the codes of the symbols on
its leaves no code is a prefix of the code of a different symbol. -/
theorem codes_prefix_free (pq : priority_queue) (data : List byte) :
    ∃ t, huffman_encoding_tree.construct pq data = some t ∧
      ∀ c1 c2 : byte, c1 ∈ t.tree.leaves → c2 ∈ t.tree.leaves → c1 ≠ c2 →
        ¬ t.get_code c1 <+: t.get_code c2 := by
  obtain ⟨l, rt, ht, _⟩ := construct_basic pq data
  refine ⟨_, ht, ?_⟩
  intro c1 c2 h1 h2 hne
  simp only [huffman_encoding_tree.get_code]
  rw [build_codes_eq, build_codes_eq, if_pos h1, if_pos h2]
  exact rel_code_not_prefix _ c1 c2 h1 h2 hne

/-- Witness for C6: the two symbols of the buffer `[97, 98, 97]` are leaves of its tree, and the
code of `97` is not a prefix of the code of `98`. -/
theorem codes_prefix_free_witness :
    ∃ t, huffman_encoding_tree.construct list_queue [97, 98, 97] = some t ∧
      (97 : byte) ∈ t.tree.leaves ∧ (98 : byte) ∈ t.tree.leaves ∧
      ¬ t.get_code 97 <+: t.get_code 98 := by
  obtain ⟨t, ht, h⟩ := codes_prefix_free list_queue [97, 98, 97]
  obtain ⟨l, rt, ht1, hl⟩ := construct_basic list_queue [97, 98, 97]
  rw [ht] at ht1
  have h97 : (97 : byte) ∈ t.tree.leaves := by
    rw [Option.some.inj ht1]
    exact hl.symm.subset (mem_final_freq _ _ (by decide))
  have h98 : (98 : byte) ∈ t.tree.leaves := by
    rw [Option.some.inj ht1]
    exact hl.symm.subset (mem_final_freq _ _ (by decide))
  exact ⟨t, ht, h97, h98, h 97 98 h97 h98 (by decide)⟩

/-- Claim C8. For every buffer the encoding tree is built, and for every byte value `ch`: a
non-empty table entry `codes[ch]` leads, walked from the root (`0` = `go[0]`, `1` = `go[1]`), to a
leaf with symbol `ch`; and an empty entry means that `ch` does not occur in the buffer. -/
theorem codes_assigned_correctly (pq : priority_queue) (data : List byte) :
    ∃ t, huffman_encoding_tree.construct pq data = some t ∧
      ∀ ch : byte, (t.codes ch ≠ [] → walk t.tree (t.codes ch) = some (node.leaf ch)) ∧
        (t.codes ch = [] → ch ∉ data) := by
  obtain ⟨l, rt, ht, hl⟩ := construct_basic pq data
  refine ⟨_, ht, ?_⟩
  intro ch
  simp only [build_codes_eq]
  by_cases hmem : ch ∈ (node.internal l rt).leaves
  · rw [if_pos hmem]
    exact ⟨fun _ => walk_rel_code _ ch hmem,
      fun h => absurd h (rel_code_internal_ne_nil l rt ch)⟩
  · rw [if_neg hmem]
    exact ⟨fun h => absurd rfl h,
      fun _ hd => hmem (hl.symm.subset (mem_final_freq data ch hd))⟩

set_option maxRecDepth 1000000 in
/-- Witness for C8 on the buffer `[97, 98, 97]`: the entry of `97` is not empty and leads to the
leaf `97`; the entry of `99` is empty and `99` does not occur in the buffer. -/
theorem codes_assigned_correctly_witness :
    ∃ t, huffman_encoding_tree.construct list_queue [97, 98, 97] = some t ∧
      t.codes 97 ≠ [] ∧ walk t.tree (t.codes 97) = some (node.leaf 97) ∧
      t.codes 99 = [] ∧ (99 : byte) ∉ ([97, 98, 97] : List byte) := by
  obtain ⟨t, ht, h⟩ := codes_assigned_correctly list_queue [97, 98, 97]
  have hev : (huffman_encoding_tree.construct list_queue [97, 98, 97]).map
      (fun t => (t.codes 97, t.codes 99)) = some ([true], []) := by decide
  rw [ht] at hev
  simp only [Option.map_some', Option.some.injEq, Prod.mk.injEq] at hev
  have h97 : t.codes 97 ≠ [] := by rw [hev.1]; simp
  exact ⟨t, ht, h97, (h 97).1 h97, hev.2, (h 99).2 hev.2⟩

theorem final_freq_ne_zero_iff (data : List byte) (c : byte) :
    final_freq data c ≠ 0 ↔
      (c ∈ data ∨ (data = [] ∧ (c = 0 ∨ c = 1)) ∨
        ∃ a, a ∈ data ∧ (∀ x ∈ data, x = a) ∧ c = byte_succ a) := by
  cases data with
  | nil =>
    rw [final_freq_nil]
    by_cases h : c = 0 ∨ c = 1
    · simp [h]
    · simp [h]
  | cons a l =>
    by_cases hall : ∀ x ∈ a :: l, x = a
    · have hrep : a :: l = List.replicate (l.length + 1) a :=
        List.eq_replicate_iff.2 ⟨by simp, hall⟩
      have hiff : (∃ b, b ∈ a :: l ∧ (∀ x ∈ a :: l, x = b) ∧ c = byte_succ b) ↔
          c = byte_succ a := by
        constructor
        · rintro ⟨b, hb, _, hc⟩
          rw [hc, hall b hb]
        · intro hc
          exact ⟨a, List.mem_cons_self _ _, hall, hc⟩
      have hmem : c ∈ a :: l ↔ c = a := by
        constructor
        · exact hall c
        · intro h; rw [h]; exact List.mem_cons_self _ _
      rw [hiff, hmem, hrep, final_freq_replicate]
      by_cases h1 : c = a
      · simp [h1]
      · by_cases h2 : c = byte_succ a
        · have hne : byte_succ a ≠ a := byte_succ_ne a
          simp [h2, hne]
        · simp [h1, h2]
    · have hex : ∃ b, b ∈ a :: l ∧ b ≠ a := by
        by_contra hcon
        apply hall
        intro x hx
        by_contra hne
        exact hcon ⟨x, hx, hne⟩
      obtain ⟨b, hb, hba⟩ := hex
      rw [final_freq_of_two (a :: l) b a hb (List.mem_cons_self _ _) hba, count_freq_eq]
      constructor
      · intro h
        exact Or.inl (List.count_pos_iff.1 (Nat.pos_of_ne_zero h))
      · rintro (h | ⟨h, _⟩ | ⟨d, hd, hd1, _⟩)
        · exact Nat.pos_iff_ne_zero.1 (List.count_pos_iff.2 h)
        · simp at h
        · exact absurd (fun x hx => (hd1 x hx).trans (hd1 a (List.mem_cons_self _ _)).symm) hall

theorem code_ne_nil_iff (l r : node) (c : byte) :
    build_codes (node.internal l r) c ≠ [] ↔ c ∈ (node.internal l r).leaves := by
  rw [build_codes_eq]
  by_cases h : c ∈ (node.internal l r).leaves
  · simp only [if_pos h, h, iff_true]
    exact rel_code_internal_ne_nil l r c
  · simp [if_neg h, h]

set_option maxRecDepth 1000000 in
/-- Counterexample to C9 as stated: for the empty buffer the code table has a non-empty entry
for the byte value `0`, a value that does not occur in the buffer. -/
theorem code_table_entry_of_absent_symbol :
    ∃ t, huffman_encoding_tree.construct list_queue [] = some t ∧
      t.get_code 0 ≠ [] ∧ (0 : byte) ∉ ([] : List byte) := by
  obtain ⟨l, r, ht, _⟩ := construct_basic list_queue []
  have hev : (huffman_encoding_tree.construct list_queue []).map (fun t => t.get_code 0) =
      some [false] := by decide
  refine ⟨_, ht, ?_, by simp⟩
  rw [ht] at hev
  simp only [Option.map_some', Option.some.injEq] at hev
  rw [hev]
  simp

/-- Claim C9, amended. For every buffer the encoding tree is built, and the code table has a
non-empty entry for `c` exactly when `c` occurs in the buffer or `c` is a symbol the special
cases add: `0` and `1` for the empty buffer, `(a + 1) mod 256` for a buffer whose bytes all equal
`a`. -/
theorem code_table_entries (pq : priority_queue) (data : List byte) :
    ∃ t, huffman_encoding_tree.construct pq data = some t ∧
      ∀ c : byte, t.get_code c ≠ [] ↔
        (c ∈ data ∨ (data = [] ∧ (c = 0 ∨ c = 1)) ∨
          ∃ a, a ∈ data ∧ (∀ x ∈ data, x = a) ∧ c = byte_succ a) := by
  obtain ⟨l, r, ht, hl⟩ := construct_basic pq data
  refine ⟨_, ht, ?_⟩
  intro c
  simp only [huffman_encoding_tree.get_code]
  rw [code_ne_nil_iff, hl.mem_iff, mem_nonzero_syms, final_freq_ne_zero_iff]

/-! ## Degenerate buffers -/

theorem leaf_of_leaves_length_one (t : node) (h : t.leaves.length = 1) :
    ∃ x, t = node.leaf x := by
  cases t with
  | leaf x => exact ⟨x, rfl⟩
  | internal l r =>
    have h1 := leaves_length_pos l
    have h2 := leaves_length_pos r
    simp only [node.leaves, List.length_append] at h
    omega

theorem two_leaves_of_perm (l r : node) (s1 s2 : byte)
    (h : (node.internal l r).leaves.Perm [s1, s2]) :
    ∃ x y, node.internal l r = node.internal (node.leaf x) (node.leaf y) ∧
      ((x = s1 ∧ y = s2) ∨ (x = s2 ∧ y = s1)) := by
  have hlen := h.length_eq
  have h1 := leaves_length_pos l
  have h2 := leaves_length_pos r
  simp only [node.leaves, List.length_append, List.length_cons, List.length_nil] at hlen
  obtain ⟨x, rfl⟩ := leaf_of_leaves_length_one l (by omega)
  obtain ⟨y, rfl⟩ := leaf_of_leaves_length_one r (by omega)
  refine ⟨x, y, rfl, ?_⟩
  simp only [node.leaves, List.singleton_append] at h
  have hx : x ∈ [s1, s2] := h.subset (by simp)
  have hy : y ∈ [s1, s2] := h.subset (by simp)
  have hs1 : s1 ∈ [x, y] := h.symm.subset (by simp)
  have hs2 : s2 ∈ [x, y] := h.symm.subset (by simp)
  simp only [List.mem_cons, List.mem_singleton, List.not_mem_nil, or_false] at hx hy hs1 hs2
  rcases hx with hx | hx
  · rcases hy with hy | hy
    · rcases hs2 with hs2 | hs2
      · exact Or.inr ⟨hs2.symm, hy⟩
      · exact Or.inl ⟨hx, hs2.symm⟩
    · exact Or.inl ⟨hx, hy⟩
  · rcases hy with hy | hy
    · exact Or.inr ⟨hx, hy⟩
    · rcases hs1 with hs1 | hs1
      · exact Or.inl ⟨hs1.symm, hy⟩
      · exact Or.inr ⟨hx, hs1.symm⟩

theorem nonzero_syms_perm_pair (freq : byte → Nat) (s1 s2 : byte) (hne : s1 ≠ s2)
    (h : ∀ c, freq c ≠ 0 ↔ c = s1 ∨ c = s2) : (nonzero_syms freq).Perm [s1, s2] := by
  rw [List.perm_ext_iff_of_nodup (nonzero_syms_nodup freq) (by simp [hne])]
  intro c
  rw [mem_nonzero_syms, h]
  simp

theorem two_leaf_tree_of_pair (pq : priority_queue) (data : List byte) (s : byte)
    (h : ∀ c, final_freq data c ≠ 0 ↔ c = s ∨ c = byte_succ s) :
    ∃ t x y, huffman_encoding_tree.construct pq data = some t ∧
      t.tree = node.internal (node.leaf x) (node.leaf y) ∧
      ((x = s ∧ y = byte_succ s) ∨ (x = byte_succ s ∧ y = s)) := by
  obtain ⟨l, r, ht, hl⟩ := construct_basic pq data
  have hp := hl.trans (nonzero_syms_perm_pair _ s (byte_succ s) (byte_succ_ne s).symm h)
  obtain ⟨x, y, hxy, hor⟩ := two_leaves_of_perm l r _ _ hp
  exact ⟨_, x, y, ht, hxy, hor⟩

/-- Claim C10. For a buffer with at most one distinct byte value, the built tree is an internal
root with two leaf children whose symbols are `s` and `(s + 1) mod 256`, in one order or the
other, where `s = 0` for the empty buffer and `s = a` for `n + 1` copies of `a`; for `a = 255` the
second symbol is `0`. -/
theorem degenerate_tree (pq : priority_queue) (n : Nat) (a : byte) :
    (∃ t x y, huffman_encoding_tree.construct pq [] = some t ∧
      t.tree = node.internal (node.leaf x) (node.leaf y) ∧
      ((x = 0 ∧ y = 1) ∨ (x = 1 ∧ y = 0))) ∧
    (∃ t x y, huffman_encoding_tree.construct pq (List.replicate (n + 1) a) = some t ∧
      t.tree = node.internal (node.leaf x) (node.leaf y) ∧
      ((x = a ∧ y = byte_succ a) ∨ (x = byte_succ a ∧ y = a))) ∧
    (byte_succ a).val = (a.val + 1) % 256 ∧ byte_succ 255 = 0 := by
  refine ⟨?_, ?_, rfl, rfl⟩
  · apply two_leaf_tree_of_pair pq [] 0
    intro c
    rw [final_freq_nil]
    have h1 : byte_succ 0 = 1 := rfl
    rw [h1]
    by_cases h : c = 0 ∨ c = 1
    · simp [h]
    · simp [h]
  · apply two_leaf_tree_of_pair pq (List.replicate (n + 1) a) a
    intro c
    rw [final_freq_replicate]
    by_cases h1 : c = a
    · simp [h1]
    · by_cases h2 : c = byte_succ a
      · have hne : byte_succ a ≠ a := byte_succ_ne a
        simp [h2, hne]
      · simp [h1, h2]

/-! ## Encode and decode -/

theorem encode_chars_eq (tree : huffman_encoding_tree) (data : List byte) :
    encode_chars tree data = data.flatMap tree.get_code := by
  have key : ∀ (l : List byte) (acc : List Bool),
      l.foldl (fun encoded_chars b => encoded_chars ++ tree.get_code b) acc =
        acc ++ l.flatMap tree.get_code := by
    intro l
    induction l with
    | nil => intro acc; simp
    | cons b l ih => intro acc; rw [List.foldl_cons, ih, List.flatMap_cons, List.append_assoc]
  rw [encode_chars, key, List.nil_append]

theorem decode_loop_codes (l r : node) : ∀ (data res : List byte) (fuel : Nat),
    (∀ c ∈ data, c ∈ (node.internal l r).leaves) →
    (data.flatMap (rel_code (node.internal l r))).length ≤ fuel →
    decode_loop fuel ⟨node.internal l r, data.flatMap (rel_code (node.internal l r))⟩ res =
      some (res ++ data) := by
  intro data
  induction data with
  | nil =>
    intro res fuel _ _
    cases fuel <;> simp [decode_loop, huffman_decoding_tree.eof]
  | cons c cs ih =>
    intro res fuel hmem hfuel
    have hc : c ∈ (node.internal l r).leaves := hmem c (List.mem_cons_self _ _)
    have hne := rel_code_internal_ne_nil l r c
    have hpos : 0 < (rel_code (node.internal l r) c).length := List.length_pos.2 hne
    rw [List.flatMap_cons, List.length_append] at hfuel
    obtain ⟨fuel, rfl⟩ : ∃ k, fuel = k + 1 := ⟨fuel - 1, by omega⟩
    have heof : (huffman_decoding_tree.mk (node.internal l r)
        ((c :: cs).flatMap (rel_code (node.internal l r)))).eof = false := by
      rw [huffman_decoding_tree.eof, List.flatMap_cons]
      cases hrc : rel_code (node.internal l r) c with
      | nil => exact absurd hrc hne
      | cons b bs => rfl
    have hdec : (huffman_decoding_tree.mk (node.internal l r)
        ((c :: cs).flatMap (rel_code (node.internal l r)))).decode_char =
        some (c, ⟨node.internal l r, cs.flatMap (rel_code (node.internal l r))⟩) := by
      rw [huffman_decoding_tree.decode_char, List.flatMap_cons]
      simp only [decode_char_dfs_rel_code _ c _ hc]
    rw [decode_loop, heof]
    simp only [Bool.false_eq_true, if_false, hdec]
    rw [ih (res ++ [c]) fuel (fun x hx => hmem x (List.mem_cons_of_mem _ hx)) (by omega)]
    simp

theorem flatMap_congr_mem {α β : Type} (f g : α → List β) (l : List α)
    (h : ∀ x ∈ l, f x = g x) : l.flatMap f = l.flatMap g := by
  induction l with
  | nil => rfl
  | cons a l ih =>
    rw [List.flatMap_cons, List.flatMap_cons, h a (List.mem_cons_self _ _),
      ih (fun x hx => h x (List.mem_cons_of_mem _ hx))]

/-- The results of `encode` and of `decode` on the encoded data, spelled out. -/
theorem encode_decode_explicit (pq : priority_queue) (data : List byte) :
    ∃ l r bytes,
      huffman_encoding_tree.construct pq data =
        some ⟨node.internal l r, build_codes (node.internal l r)⟩ ∧
      (node.internal l r).leaves.Perm (nonzero_syms (final_freq data)) ∧
      bits_to_bytes_with_padding (tree_info_dfs (node.internal l r) [] ++
        data.flatMap (rel_code (node.internal l r))) = some bytes ∧
      encode pq data = some ⟨bytes, data.length,
        ((data.flatMap (rel_code (node.internal l r))).length + BITS_IN_BYTE - 1) / BITS_IN_BYTE,
        size_t_sub bytes.length
          (((data.flatMap (rel_code (node.internal l r))).length + BITS_IN_BYTE - 1)
            / BITS_IN_BYTE)⟩ ∧
      decode bytes = some ⟨data,
        ((data.flatMap (rel_code (node.internal l r))).length + BITS_IN_BYTE - 1) / BITS_IN_BYTE,
        data.length,
        size_t_sub bytes.length
          (((data.flatMap (rel_code (node.internal l r))).length + BITS_IN_BYTE - 1)
            / BITS_IN_BYTE)⟩ := by
  obtain ⟨l, r, ht, hl⟩ := construct_basic pq data
  have hmem : ∀ c ∈ data, c ∈ (node.internal l r).leaves :=
    fun c hc => hl.symm.subset (mem_final_freq data c hc)
  have hchars : encode_chars ⟨node.internal l r, build_codes (node.internal l r)⟩ data =
      data.flatMap (rel_code (node.internal l r)) := by
    rw [encode_chars_eq]
    apply flatMap_congr_mem
    intro c hc
    simp only [huffman_encoding_tree.get_code]
    rw [build_codes_eq, if_pos (hmem c hc)]
  obtain ⟨bytes, hpack, hunpack⟩ := bytes_with_padding_to_bits_spec
    (tree_info_dfs (node.internal l r) [] ++ data.flatMap (rel_code (node.internal l r)))
  have hloop := decode_loop_codes l r data [] _ hmem (le_refl _)
  refine ⟨l, r, bytes, ht, hl, hpack, ?_, ?_⟩
  · simp only [encode, ht, hchars, huffman_encoding_tree.get_tree_info, hpack]
  · simp only [decode, hunpack, decoding_tree_construct_tree_info,
      huffman_decoding_tree.get_it, hloop, List.nil_append]

/-- Claim C1. For every byte sequence `b`, `encode` succeeds, `decode` succeeds on the data that
`encode` produced, and the data `decode` returns is exactly `b`. -/
theorem encode_decode_roundtrip (pq : priority_queue) (b : List byte) :
    ∃ e d, encode pq b = some e ∧ decode e.data = some d ∧ d.data = b := by
  obtain ⟨l, r, bytes, _, _, _, henc, hdec⟩ := encode_decode_explicit pq b
  exact ⟨_, _, henc, hdec, rfl⟩

/-! ## Optimality of the constructed tree -/

theorem pairs_cost_cons (p : Nat × Nat) (M : Multiset (Nat × Nat)) :
    pairs_cost (p ::ₘ M) = p.1 * p.2 + pairs_cost M := by
  simp [pairs_cost]

/-- Exchange step: a least weight `x` can be given a greatest depth `h` without increasing the
cost; the rest of the assignment pairs the remaining weights with the remaining depths. -/
theorem exchange_min (M : Multiset (Nat × Nat)) (x h : Nat) (U D : Multiset Nat)
    (h1 : M.map Prod.fst = x ::ₘ U) (h2 : M.map Prod.snd = h ::ₘ D)
    (hx : ∀ u ∈ U, x ≤ u) (hh : ∀ d ∈ D, d ≤ h) :
    ∃ N : Multiset (Nat × Nat), N.map Prod.fst = U ∧ N.map Prod.snd = D ∧
      pairs_cost N + x * h ≤ pairs_cost M := by
  have hxmem : x ∈ M.map Prod.fst := by rw [h1]; exact Multiset.mem_cons_self _ _
  obtain ⟨⟨x1, dx⟩, hp, hpx⟩ := Multiset.mem_map.1 hxmem
  simp only at hpx
  subst hpx
  obtain ⟨M1, rfl⟩ := Multiset.exists_cons_of_mem hp
  rw [Multiset.map_cons, Multiset.cons_inj_right] at h1
  rw [Multiset.map_cons] at h2
  simp only at h2
  by_cases hd : dx = h
  · subst hd
    rw [Multiset.cons_inj_right] at h2
    exact ⟨M1, h1, h2, by rw [pairs_cost_cons]; simp only; omega⟩
  · have hhmem : h ∈ dx ::ₘ M1.map Prod.snd := by rw [h2]; exact Multiset.mem_cons_self _ _
    rcases Multiset.mem_cons.1 hhmem with hh1 | hh1
    · exact absurd hh1.symm hd
    · obtain ⟨⟨p, h'⟩, hq, hqh⟩ := Multiset.mem_map.1 hh1
      simp only at hqh
      subst hqh
      obtain ⟨M2, rfl⟩ := Multiset.exists_cons_of_mem hq
      rw [Multiset.map_cons] at h1 h2
      simp only at h1 h2
      rw [Multiset.cons_swap, Multiset.cons_inj_right] at h2
      refine ⟨(p, dx) ::ₘ M2, by rw [Multiset.map_cons]; exact h1,
        by rw [Multiset.map_cons]; exact h2, ?_⟩
      have hxp : x1 ≤ p := hx p (by rw [← h1]; exact Multiset.mem_cons_self _ _)
      have hdh : dx ≤ h' := hh dx (by rw [← h2]; exact Multiset.mem_cons_self _ _)
      rw [pairs_cost_cons, pairs_cost_cons, pairs_cost_cons]
      simp only
      nlinarith [Nat.mul_le_mul (Nat.sub_le p x1) (Nat.sub_le h' dx),
        mul_le_mul hxp hdh (Nat.zero_le _) (Nat.zero_le _)]

theorem depths_le_height (t : node) : ∀ d ∈ depths t, d ≤ t.height := by
  induction t with
  | leaf c => intro d hd; simp [depths] at hd; simp [hd]
  | internal l r ihl ihr =>
    intro d hd
    simp only [depths, Multiset.mem_map, Multiset.mem_add] at hd
    obtain ⟨d1, hd1, rfl⟩ := hd
    simp only [node.height]
    rcases hd1 with h | h
    · have := ihl d1 h; omega
    · have := ihr d1 h; omega

/-- Merging two sibling leaves of greatest depth: a tree that is not a single leaf has two leaves
at its height `h`, and replacing them by one leaf at depth `h - 1` gives the depths of a tree. -/
theorem merge_deepest (t : node) : ∀ l r, t = node.internal l r →
    ∃ (t1 : node) (D : Multiset Nat), depths t1 = (t.height - 1) ::ₘ D ∧
      depths t = t.height ::ₘ t.height ::ₘ D ∧ 1 ≤ t.height := by
  induction t with
  | leaf c => intro l r h; exact absurd h (by simp)
  | internal l r ihl ihr =>
    intro l1 r1 _
    have key : ∀ (a b : node) (mk : node → node),
        (∀ a1, depths (mk a1) = (depths a1 + depths b).map (fun d => d + 1)) →
        b.height ≤ a.height →
        (∀ l2 r2, a = node.internal l2 r2 →
          ∃ (t1 : node) (D : Multiset Nat), depths t1 = (a.height - 1) ::ₘ D ∧
            depths a = a.height ::ₘ a.height ::ₘ D ∧ 1 ≤ a.height) →
        (∀ c, a = node.leaf c → ∃ c1, b = node.leaf c1) →
        ∃ (t1 : node) (D : Multiset Nat), depths t1 = a.height ::ₘ D ∧
          (depths a + depths b).map (fun d => d + 1) =
            (a.height + 1) ::ₘ (a.height + 1) ::ₘ D := by
      intro a b mk hmk hle iha hleaf
      cases ha : a with
      | leaf c =>
        obtain ⟨c1, hb⟩ := hleaf c ha
        refine ⟨node.leaf c, 0, ?_, ?_⟩
        · simp [depths, node.height]
        · rw [hb]; simp [depths, node.height]
      | internal l2 r2 =>
        obtain ⟨t1, D, h1, h2, h3⟩ := iha l2 r2 ha
        rw [← ha]
        refine ⟨mk t1, (D + depths b).map (fun d => d + 1), ?_, ?_⟩
        · rw [hmk, h1, Multiset.cons_add, Multiset.map_cons]
          congr 1
          omega
        · rw [h2, Multiset.cons_add, Multiset.cons_add, Multiset.map_cons, Multiset.map_cons]
    have hleaf_height : ∀ a : node, a.height = 0 → ∃ c, a = node.leaf c := by
      intro a ha
      cases a with
      | leaf c => exact ⟨c, rfl⟩
      | internal _ _ => simp [node.height] at ha
    by_cases hle : r.height ≤ l.height
    · obtain ⟨t1, D, h1, h2⟩ := key l r (fun a1 => node.internal a1 r) (fun _ => rfl) hle ihl
        (fun c hc => hleaf_height r (by rw [hc] at hle; simpa [node.height] using hle))
      have hh : (node.internal l r).height = l.height + 1 := by
        simp only [node.height]; omega
      refine ⟨t1, D, ?_, ?_, by omega⟩
      · rw [hh, Nat.add_sub_cancel]; exact h1
      · rw [hh]; simp only [depths]; exact h2
    · have hle1 : l.height ≤ r.height := by omega
      obtain ⟨t1, D, h1, h2⟩ := key r l (fun a1 => node.internal l a1)
        (fun a1 => by simp only [depths]; rw [add_comm]) hle1 ihr
        (fun c hc => hleaf_height l (by rw [hc] at hle1; simpa [node.height] using hle1))
      have hh : (node.internal l r).height = r.height + 1 := by
        simp only [node.height]; omega
      refine ⟨t1, D, ?_, ?_, by omega⟩
      · rw [hh, Nat.add_sub_cancel]; exact h1
      · rw [hh]; simp only [depths]; rw [add_comm]; exact h2

theorem depths_card (t : node) : Multiset.card (depths t) = t.leaves.length := by
  induction t with
  | leaf c => simp [depths, node.leaves]
  | internal l r ihl ihr => simp [depths, node.leaves, ihl, ihr]

theorem opt_inv_perm (freq : byte → Nat) (K : Nat) (l1 l2 : List subtree_ref)
    (h : l1.Perm l2) (h1 : opt_inv freq K l1) : opt_inv freq K l2 := by
  obtain ⟨S, M, hs, hf, hc⟩ := h1
  refine ⟨S, M, hs, ?_, ?_⟩
  · rw [hf]
    exact Multiset.coe_eq_coe.2 (h.map _)
  · rw [← (h.map (fun e => cost freq e.subtree)).sum_eq]
    exact hc

theorem opt_inv_step (freq : byte → Nat) (K : Nat) (e1 e2 : subtree_ref)
    (F : List subtree_ref) (hinv : heap_inv freq (e1 :: e2 :: F))
    (h : opt_inv freq K (e1 :: e2 :: F))
    (hm1 : ∀ x ∈ e2 :: F, e1.freq ≤ x.freq) (hm2 : ∀ x ∈ F, e2.freq ≤ x.freq) :
    opt_inv freq K (merge_ref e1 e2 :: F) := by
  obtain ⟨S, M, hs, hf, hc⟩ := h
  have hcard : 2 ≤ S.leaves.length := by
    rw [← depths_card, ← hs, Multiset.card_map]
    have := congrArg Multiset.card hf
    rw [Multiset.card_map] at this
    rw [this]
    simp
  cases hS : S with
  | leaf c => rw [hS] at hcard; simp [node.leaves] at hcard
  | internal l r =>
    obtain ⟨S1, D, hd1, hd2, hh⟩ := merge_deepest S l r hS
    have hle := depths_le_height S
    rw [hd2] at hle hs
    simp only [List.map_cons] at hf
    rw [← Multiset.cons_coe, ← Multiset.cons_coe] at hf
    obtain ⟨N1, hN1f, hN1s, hN1c⟩ := exchange_min M e1.freq S.height _ _ hf hs
      (by
        intro u hu
        rw [Multiset.cons_coe, Multiset.mem_coe, ← List.map_cons, List.mem_map] at hu
        obtain ⟨x, hx, rfl⟩ := hu
        exact hm1 x hx)
      (fun d hd => hle d (Multiset.mem_cons_of_mem hd))
    obtain ⟨N2, hN2f, hN2s, hN2c⟩ := exchange_min N1 e2.freq S.height _ _ hN1f hN1s
      (by
        intro u hu
        rw [Multiset.mem_coe, List.mem_map] at hu
        obtain ⟨x, hx, rfl⟩ := hu
        exact hm2 x hx)
      (fun d hd => hle d (Multiset.mem_cons_of_mem (Multiset.mem_cons_of_mem hd)))
    refine ⟨S1, (e1.freq + e2.freq, S.height - 1) ::ₘ N2, ?_, ?_, ?_⟩
    · rw [Multiset.map_cons, hN2s, hd1]
    · rw [Multiset.map_cons, hN2f]
      simp [merge_ref]
    · have hw1 := hinv.2 e1 (by simp)
      have hw2 := hinv.2 e2 (by simp)
      simp only [List.map_cons, List.sum_cons, merge_ref, cost, pairs_cost_cons] at hc ⊢
      rw [← hw1, ← hw2]
      have hmul : (e1.freq + e2.freq) * (S.height - 1) + (e1.freq + e2.freq) =
          e1.freq * S.height + e2.freq * S.height := by
        obtain ⟨k, hk⟩ : ∃ k, S.height = k + 1 := ⟨S.height - 1, by omega⟩
        rw [hk, Nat.add_sub_cancel]
        ring
      omega

theorem leaf_pairs_snd (freq : byte → Nat) (t : node) :
    (leaf_pairs freq t).map Prod.snd = depths t := by
  induction t with
  | leaf c => simp [leaf_pairs, depths]
  | internal l r ihl ihr =>
    simp only [leaf_pairs, depths, Multiset.map_map, Multiset.map_add]
    rw [← ihl, ← ihr]
    simp [Multiset.map_map, Function.comp]

theorem leaf_pairs_fst (freq : byte → Nat) (t : node) :
    (leaf_pairs freq t).map Prod.fst = ((t.leaves.map freq : List Nat) : Multiset Nat) := by
  induction t with
  | leaf c => simp [leaf_pairs, node.leaves]
  | internal l r ihl ihr =>
    simp only [leaf_pairs, node.leaves, Multiset.map_map, Multiset.map_add, List.map_append]
    rw [← Multiset.coe_add, ← ihl, ← ihr]
    simp [Function.comp]

theorem leaf_pairs_cost (freq : byte → Nat) (t : node) :
    pairs_cost (leaf_pairs freq t) = cost freq t := by
  induction t with
  | leaf c => simp [leaf_pairs, pairs_cost, cost]
  | internal l r ihl ihr =>
    have hsum : ∀ M : Multiset (Nat × Nat),
        pairs_cost (M.map (fun p => (p.1, p.2 + 1))) = pairs_cost M + (M.map Prod.fst).sum := by
      intro M
      induction M using Multiset.induction_on with
      | empty => simp [pairs_cost]
      | cons a M ih =>
        rw [Multiset.map_cons, pairs_cost_cons, ih, pairs_cost_cons, Multiset.map_cons,
          Multiset.sum_cons]
        simp only
        ring
    have hadd : ∀ M1 M2 : Multiset (Nat × Nat),
        pairs_cost (M1 + M2) = pairs_cost M1 + pairs_cost M2 := by
      intro M1 M2
      simp [pairs_cost]
    rw [leaf_pairs, hsum, hadd, ihl, ihr, Multiset.map_add, Multiset.sum_add, leaf_pairs_fst,
      leaf_pairs_fst, cost, weight, weight]
    simp only [Multiset.sum_coe]
    omega

theorem opt_inv_seed (freq : byte → Nat) (S : node) (hS : S.leaves.Perm (nonzero_syms freq)) :
    opt_inv freq (cost freq S) (seed_list freq) := by
  refine ⟨S, leaf_pairs freq S, leaf_pairs_snd freq S, ?_, ?_⟩
  · rw [leaf_pairs_fst, seed_list_eq, List.map_map]
    exact Multiset.coe_eq_coe.2 (hS.map _)
  · have hzero : ((seed_list freq).map (fun e => cost freq e.subtree)).sum = 0 := by
      rw [seed_list_eq, List.map_map]
      apply List.sum_eq_zero
      intro x hx
      rw [List.mem_map] at hx
      obtain ⟨c, _, rfl⟩ := hx
      rfl
    rw [hzero, leaf_pairs_cost]
    omega

/-- The tree the constructor builds costs no more than any tree over the same symbols. -/
theorem construct_cost_le (pq : priority_queue) (data : List byte) (S : node)
    (hS : S.leaves.Perm (nonzero_syms (final_freq data))) :
    ∃ e : subtree_ref,
      huffman_encoding_tree.construct pq data = some ⟨e.subtree, build_codes e.subtree⟩ ∧
      cost (final_freq data) e.subtree ≤ cost (final_freq data) S := by
  obtain ⟨e, he, _, hopt⟩ := construct_inv pq data
    (opt_inv (final_freq data) (cost (final_freq data) S))
    (opt_inv_perm _ _) (fun e1 e2 F hinv h hm1 hm2 => opt_inv_step _ _ e1 e2 F hinv h hm1 hm2)
    (opt_inv_seed _ S hS)
  refine ⟨e, he, ?_⟩
  obtain ⟨S1, M, _, _, hc⟩ := hopt
  simp only [List.map_cons, List.map_nil, List.sum_cons, List.sum_nil] at hc
  omega

theorem sum_map_mul_succ (freq : byte → Nat) (g : byte → Nat) (l : List byte) :
    (l.map (fun c => freq c * (g c + 1))).sum =
      (l.map (fun c => freq c * g c)).sum + (l.map freq).sum := by
  induction l with
  | nil => rfl
  | cons a l ih =>
    simp only [List.map_cons, List.sum_cons, ih]
    ring

theorem sum_map_congr_mem (g1 g2 : byte → Nat) (l : List byte)
    (h : ∀ c ∈ l, g1 c = g2 c) : (l.map g1).sum = (l.map g2).sum := by
  induction l with
  | nil => rfl
  | cons a l ih =>
    simp only [List.map_cons, List.sum_cons]
    rw [h a (List.mem_cons_self _ _), ih (fun c hc => h c (List.mem_cons_of_mem _ hc))]

theorem sum_rel_code_eq_cost (freq : byte → Nat) (t : node) (hnd : t.leaves.Nodup) :
    (t.leaves.map (fun c => freq c * (rel_code t c).length)).sum = cost freq t := by
  induction t with
  | leaf c => simp [node.leaves, rel_code, cost]
  | internal l r ihl ihr =>
    simp only [node.leaves] at hnd
    have hdisj := List.disjoint_of_nodup_append hnd
    have hl : (l.leaves.map (fun c => freq c * (rel_code (node.internal l r) c).length)).sum =
        (l.leaves.map (fun c => freq c * ((rel_code l c).length + 1))).sum := by
      apply sum_map_congr_mem
      intro c hc
      have hr : c ∉ r.leaves := fun h => hdisj hc h
      simp only [rel_code, hr, if_false, List.length_cons]
    have hr : (r.leaves.map (fun c => freq c * (rel_code (node.internal l r) c).length)).sum =
        (r.leaves.map (fun c => freq c * ((rel_code r c).length + 1))).sum := by
      apply sum_map_congr_mem
      intro c hc
      simp only [rel_code, hc, if_true, List.length_cons]
    simp only [node.leaves, List.map_append, List.sum_append]
    rw [hl, hr, sum_map_mul_succ, sum_map_mul_succ, ihl (List.Nodup.of_append_left hnd),
      ihr (List.Nodup.of_append_right hnd), cost, weight, weight]
    omega

theorem code_cost_build_codes (freq : byte → Nat) (t : node)
    (ht : t.leaves.Perm (nonzero_syms freq)) :
    code_cost freq (build_codes t) = cost freq t := by
  have hnd : t.leaves.Nodup := ht.nodup_iff.2 (nonzero_syms_nodup freq)
  rw [code_cost, ← (ht.map (fun c => freq c * (build_codes t c).length)).sum_eq,
    ← sum_rel_code_eq_cost freq t hnd]
  apply sum_map_congr_mem
  intro c hc
  rw [build_codes_eq, if_pos hc]

/-- Claim C7. For every buffer the encoding tree is built, and for the adjusted frequency table
`f` its code table is optimal: the sum over the symbols `c` with `f c > 0` of `f c` times the
length of `get_code(c)` is at most the same sum for the code table of any binary tree whose
leaves are exactly the symbols with `f c > 0`, each once. -/
theorem huffman_tree_optimal (pq : priority_queue) (data : List byte) :
    ∃ t, huffman_encoding_tree.construct pq data = some t ∧
      ∀ S : node, S.leaves.Perm (nonzero_syms (final_freq data)) →
        code_cost (final_freq data) t.get_code ≤
          code_cost (final_freq data) (build_codes S) := by
  obtain ⟨l, r, ht, hl⟩ := construct_basic pq data
  refine ⟨_, ht, ?_⟩
  intro S hS
  obtain ⟨e, he, hle⟩ := construct_cost_le pq data S hS
  rw [ht] at he
  have htree : node.internal l r = e.subtree :=
    congrArg huffman_encoding_tree.tree (Option.some.inj he)
  have hcodes : (huffman_encoding_tree.mk (node.internal l r)
      (build_codes (node.internal l r))).get_code = build_codes (node.internal l r) := rfl
  rw [hcodes, code_cost_build_codes _ _ hl, code_cost_build_codes _ _ hS, htree]
  exact hle

set_option maxRecDepth 1000000 in
/-- Witness for C7 on the buffer `aabac` of the unit tests, compared with the tree that puts
`a` and `b` below a common parent and `c` directly below the root. -/
theorem huffman_tree_optimal_witness :
    (node.internal (node.internal (node.leaf 97) (node.leaf 98)) (node.leaf 99)).leaves.Perm
      (nonzero_syms (final_freq [97, 97, 98, 97, 99])) ∧
    ∃ t, huffman_encoding_tree.construct list_queue [97, 97, 98, 97, 99] = some t ∧
      code_cost (final_freq [97, 97, 98, 97, 99]) t.get_code ≤
        code_cost (final_freq [97, 97, 98, 97, 99])
          (build_codes (node.internal (node.internal (node.leaf 97) (node.leaf 98))
            (node.leaf 99))) := by
  have hperm : (node.internal (node.internal (node.leaf 97) (node.leaf 98))
      (node.leaf 99)).leaves.Perm (nonzero_syms (final_freq [97, 97, 98, 97, 99])) := by
    decide
  obtain ⟨t, ht, h⟩ := huffman_tree_optimal list_queue [97, 97, 98, 97, 99]
  exact ⟨hperm, t, ht, h _ hperm⟩

/-! ## Size counters, padding layout and the alignment assertion -/

/-- Claim C12. For every byte sequence `b`, `encode` returns some `e` and `decode` returns some
`d` on `e.data`, with `e.initial_size` the length of `b`, `d.processed_size = e.initial_size`,
`d.initial_size = e.processed_size` and `d.aux_size = e.aux_size`. -/
theorem encode_decode_sizes (pq : priority_queue) (b : List byte) :
    ∃ e d, encode pq b = some e ∧ decode e.data = some d ∧
      e.initial_size = b.length ∧ d.processed_size = e.initial_size ∧
      d.initial_size = e.processed_size ∧ d.aux_size = e.aux_size := by
  obtain ⟨l, r, bytes, _, _, _, henc, hdec⟩ := encode_decode_explicit pq b
  exact ⟨_, _, henc, hdec, rfl, rfl, rfl, rfl⟩

theorem padding_facts (s : List Bool) :
    1 ≤ BITS_IN_BYTE - s.length % BITS_IN_BYTE ∧
    BITS_IN_BYTE - s.length % BITS_IN_BYTE ≤ 8 ∧
    (s.length + (BITS_IN_BYTE - s.length % BITS_IN_BYTE)) % BITS_IN_BYTE = 0 ∧
    (Fin.ofNat (BITS_IN_BYTE - s.length % BITS_IN_BYTE) : byte).val =
      BITS_IN_BYTE - s.length % BITS_IN_BYTE := by
  simp only [Fin.ofNat, BITS_IN_BYTE]
  omega

theorem bits_to_bytes_with_padding_layout (s : List Bool) :
    ∃ w, bits_to_bytes (List.replicate (BITS_IN_BYTE - s.length % BITS_IN_BYTE) false ++ s)
        = some w ∧
      bits_to_bytes_with_padding s =
        some (Fin.ofNat (BITS_IN_BYTE - s.length % BITS_IN_BYTE) :: w) ∧
      (Fin.ofNat (BITS_IN_BYTE - s.length % BITS_IN_BYTE) :: w : List byte).length =
        1 + (s.length + (BITS_IN_BYTE - s.length % BITS_IN_BYTE)) / BITS_IN_BYTE := by
  obtain ⟨h1, h2, h3, hp⟩ := padding_facts s
  have hlen : (List.replicate (BITS_IN_BYTE - s.length % BITS_IN_BYTE) false ++ s).length
      % BITS_IN_BYTE = 0 := by
    rw [List.length_append, List.length_replicate, Nat.add_comm]
    exact h3
  obtain ⟨w, hw, _, hwl⟩ := bits_to_bytes_spec _ hlen
  refine ⟨w, hw, ?_, ?_⟩
  · simp only [bits_to_bytes_with_padding, hp, hw]
  · rw [List.length_cons, hwl, List.length_append, List.length_replicate,
      Nat.add_comm (BITS_IN_BYTE - s.length % BITS_IN_BYTE), Nat.add_comm 1]

/-- Claim C13. For every bit sequence `s`, with `p = 8 - length s mod 8`: `p` is between 1 and 8
and is the value of the first byte, the padded length `length s + p` is a multiple of 8, so
`bits_to_bytes` succeeds on `p` zero bits followed by `s`, `bits_to_bytes_with_padding s` is the
byte `p` followed by that result, and it has `1 + (length s + p) / 8` bytes. -/
theorem bits_to_bytes_with_padding_eq (s : List Bool) :
    1 ≤ BITS_IN_BYTE - s.length % BITS_IN_BYTE ∧
    BITS_IN_BYTE - s.length % BITS_IN_BYTE ≤ 8 ∧
    (s.length + (BITS_IN_BYTE - s.length % BITS_IN_BYTE)) % BITS_IN_BYTE = 0 ∧
    ∃ (p : byte) (w : List byte), p.val = BITS_IN_BYTE - s.length % BITS_IN_BYTE ∧
      bits_to_bytes (List.replicate (BITS_IN_BYTE - s.length % BITS_IN_BYTE) false ++ s)
        = some w ∧
      bits_to_bytes_with_padding s = some (p :: w) ∧
      (p :: w).length =
        1 + (s.length + (BITS_IN_BYTE - s.length % BITS_IN_BYTE)) / BITS_IN_BYTE := by
  obtain ⟨h1, h2, h3, hp⟩ := padding_facts s
  obtain ⟨w, hw, hpack, hlen⟩ := bits_to_bytes_with_padding_layout s
  exact ⟨h1, h2, h3, _, w, hp, hw, hpack, hlen⟩

theorem bits_to_bytes_none_iff (s : List Bool) :
    bits_to_bytes s = none ↔ s.length % BITS_IN_BYTE ≠ 0 := by
  constructor
  · intro h hmod
    obtain ⟨v, hv, _⟩ := bits_to_bytes_spec s hmod
    rw [h] at hv
    exact absurd hv (by simp)
  · intro h
    simp only [bits_to_bytes, h, if_false]

/-- Claim C15. `bits_to_bytes` fails (the assertion is violated and no byte vector is returned)
on every bit sequence whose length is not a multiple of 8, and returns a byte vector on every
bit sequence whose length is a multiple of 8. -/
theorem bits_to_bytes_fails_iff (s : List Bool) :
    (s.length % BITS_IN_BYTE ≠ 0 → bits_to_bytes s = none) ∧
    (s.length % BITS_IN_BYTE = 0 → ∃ v, bits_to_bytes s = some v) := by
  refine ⟨(bits_to_bytes_none_iff s).2, fun h => ?_⟩
  obtain ⟨v, hv, _⟩ := bits_to_bytes_spec s h
  exact ⟨v, hv⟩

/-- Witness for C15: three bits are rejected, eight bits are packed. -/
theorem bits_to_bytes_fails_iff_witness :
    ([true, false, true] : List Bool).length % BITS_IN_BYTE ≠ 0 ∧
    bits_to_bytes [true, false, true] = none ∧
    ([false, true, true, false, true, true, true, false] : List Bool).length % BITS_IN_BYTE = 0 ∧
    ∃ v, bits_to_bytes [false, true, true, false, true, true, true, false] = some v :=
  ⟨by decide, (bits_to_bytes_fails_iff [true, false, true]).1 (by decide), by decide,
    (bits_to_bytes_fails_iff [false, true, true, false, true, true, true, false]).2 (by decide)⟩

/-! ## Shape of the constructed tree -/

theorem construct_shape (pq : priority_queue) (data : List byte) :
    ∃ t, huffman_encoding_tree.construct pq data = some t ∧
      2 ≤ t.tree.leaves.length ∧ t.tree.leaves.Nodup ∧
      (∀ c ∈ data, t.tree.leaves.count c = 1) ∧
      ((∃ a ∈ data, ∃ b ∈ data, a ≠ b) → ∀ c, c ∈ t.tree.leaves ↔ c ∈ data) := by
  obtain ⟨l, r, ht, hl⟩ := construct_basic pq data
  have hnd : (node.internal l r).leaves.Nodup := hl.nodup_iff.2 (nonzero_syms_nodup _)
  refine ⟨_, ht, ?_, hnd, ?_, ?_⟩
  · have h1 := leaves_length_pos l
    have h2 := leaves_length_pos r
    simp only [node.leaves, List.length_append]
    omega
  · intro c hc
    exact List.count_eq_one_of_mem hnd (hl.symm.subset (mem_final_freq data c hc))
  · rintro ⟨a, ha, b, hb, hab⟩ c
    show c ∈ (node.internal l r).leaves ↔ c ∈ data
    rw [hl.mem_iff, mem_nonzero_syms, final_freq_of_two data a b ha hb hab, count_freq_eq]
    constructor
    · intro h
      exact List.count_pos_iff.1 (Nat.pos_of_ne_zero h)
    · intro h
      exact Nat.pos_iff_ne_zero.1 (List.count_pos_iff.2 h)

theorem subtrees_leaf_or_internal (t : node) :
    ∀ u ∈ t.subtrees, u.is_leaf = true ∨ ∃ l r, u = node.internal l r := by
  intro u _
  cases u with
  | leaf c => exact Or.inl rfl
  | internal l r => exact Or.inr ⟨l, r, rfl⟩

/-- Claim C11. For every buffer the constructor succeeds (no pop of an empty heap happens, which
the model would report as `none`); every node of the tree is a leaf or has two children; there
are at least 2 leaves; no symbol is on two leaves; every byte of the buffer is on exactly one
leaf; and when the buffer has two distinct byte values the leaf symbols are exactly the byte
values of the buffer. -/
theorem construct_succeeds (pq : priority_queue) (data : List byte) :
    ∃ t, huffman_encoding_tree.construct pq data = some t ∧
      (∀ u ∈ t.tree.subtrees, u.is_leaf = true ∨ ∃ l r, u = node.internal l r) ∧
      2 ≤ t.tree.leaves.length ∧ t.tree.leaves.Nodup ∧
      (∀ c ∈ data, t.tree.leaves.count c = 1) ∧
      ((∃ a ∈ data, ∃ b ∈ data, a ≠ b) → ∀ c, c ∈ t.tree.leaves ↔ c ∈ data) := by
  obtain ⟨t, ht, h2, hnd, hcount, hiff⟩ := construct_shape pq data
  exact ⟨t, ht, subtrees_leaf_or_internal t.tree, h2, hnd, hcount, hiff⟩

/-- Witness for C11 on the buffer `[97, 98, 97]`, which has two distinct byte values: the leaf
symbols are exactly `97` and `98`. -/
theorem construct_succeeds_witness :
    (∃ a ∈ ([97, 98, 97] : List byte), ∃ b ∈ ([97, 98, 97] : List byte), a ≠ b) ∧
    ∃ t, huffman_encoding_tree.construct list_queue [97, 98, 97] = some t ∧
      2 ≤ t.tree.leaves.length ∧ t.tree.leaves.Nodup ∧
      (97 : byte) ∈ t.tree.leaves ∧ (99 : byte) ∉ t.tree.leaves := by
  have hex : ∃ a ∈ ([97, 98, 97] : List byte), ∃ b ∈ ([97, 98, 97] : List byte), a ≠ b :=
    ⟨97, by decide, 98, by decide, by decide⟩
  obtain ⟨t, ht, _, h2, hnd, _, hiff⟩ := construct_succeeds list_queue [97, 98, 97]
  exact ⟨hex, t, ht, h2, hnd, (hiff hex 97).2 (by decide),
    fun h => absurd ((hiff hex 99).1 h) (by decide)⟩

theorem left_le_right_subtrees (freq : byte → Nat) (t : node) (h : left_le_right freq t) :
    ∀ l r, node.internal l r ∈ t.subtrees → weight freq l ≤ weight freq r := by
  induction t with
  | leaf c =>
    intro l r hm
    simp [node.subtrees] at hm
  | internal a b iha ihb =>
    intro l r hm
    obtain ⟨h1, h2, h3⟩ := h
    simp only [node.subtrees, List.mem_cons, List.mem_append] at hm
    rcases hm with hm | hm | hm
    · simp only [node.internal.injEq] at hm
      rw [hm.1, hm.2]
      exact h1
    · exact iha h2 l r hm
    · exact ihb h3 l r hm

theorem construct_left_le_right (pq : priority_queue) (data : List byte) :
    ∃ e : subtree_ref,
      huffman_encoding_tree.construct pq data = some ⟨e.subtree, build_codes e.subtree⟩ ∧
      left_le_right (final_freq data) e.subtree := by
  obtain ⟨e, he, _, hP⟩ := construct_inv pq data
    (fun F => ∀ x ∈ F, left_le_right (final_freq data) x.subtree)
    (fun l1 l2 hp h x hx => h x (hp.symm.subset hx))
    (fun e1 e2 F hinv h hm1 _ x hx => by
      rcases List.mem_cons.1 hx with rfl | hx
      · refine ⟨?_, h e1 (by simp), h e2 (by simp)⟩
        rw [← hinv.2 e1 (by simp), ← hinv.2 e2 (by simp)]
        exact hm1 e2 (by simp)
      · exact h x (by simp [hx]))
    (fun x hx => by
      rw [seed_list_eq, List.mem_map] at hx
      obtain ⟨c, _, rfl⟩ := hx
      trivial)
  exact ⟨e, he, hP e (by simp)⟩

/-- Claim C17. For every buffer and every queue implementation (so whatever order the queue
uses among equal frequencies) the tree is built, and at every internal node of it the aggregate
adjusted frequency of the left subtree `go[0]`, the first-popped one, is at most that of the
right subtree `go[1]`. -/
theorem left_weight_le_right_weight (pq : priority_queue) (data : List byte) :
    ∃ t, huffman_encoding_tree.construct pq data = some t ∧
      ∀ l r, node.internal l r ∈ t.tree.subtrees →
        weight (final_freq data) l ≤ weight (final_freq data) r := by
  obtain ⟨e, he, h⟩ := construct_left_le_right pq data
  exact ⟨_, he, left_le_right_subtrees _ _ h⟩

/-- Witness for C17: the root of the tree of the buffer `aabac` is an internal node of that
tree, and its left subtree weighs at most as much as its right subtree. -/
theorem left_weight_le_right_weight_witness :
    ∃ t l r, huffman_encoding_tree.construct list_queue [97, 97, 98, 97, 99] = some t ∧
      node.internal l r ∈ t.tree.subtrees ∧
      weight (final_freq [97, 97, 98, 97, 99]) l ≤ weight (final_freq [97, 97, 98, 97, 99]) r := by
  obtain ⟨t, ht, h⟩ := left_weight_le_right_weight list_queue [97, 97, 98, 97, 99]
  obtain ⟨l, r, ht1, _⟩ := construct_basic list_queue [97, 97, 98, 97, 99]
  rw [ht] at ht1
  have htree : t.tree = node.internal l r :=
    congrArg huffman_encoding_tree.tree (Option.some.inj ht1)
  have hm : node.internal l r ∈ t.tree.subtrees := by
    rw [htree]
    simp [node.subtrees]
  exact ⟨t, l, r, ht, hm, h l r hm⟩

/-! ## The bit layout of `bits_to_bytes` -/

set_option maxRecDepth 1000000 in
theorem byte_bits_get : ∀ (b : byte) (p : Fin 8),
    (byte_bits b)[p.val]? = some (decide (b.val / 2 ^ p.val % 2 = 1)) := by
  decide

theorem bytes_to_bits_get (v : List byte) : ∀ (i p : Nat), p < BITS_IN_BYTE →
    (bytes_to_bits v)[BITS_IN_BYTE * i + p]? = (v[i]?).bind (fun b => (byte_bits b)[p]?) := by
  induction v with
  | nil => intro i p _; simp [bytes_to_bits]
  | cons b v ih =>
    intro i p hp
    rw [bytes_to_bits_cons]
    cases i with
    | zero =>
      rw [Nat.mul_zero, Nat.zero_add,
        List.getElem?_append_left (by rw [byte_bits_length]; exact hp)]
      simp
    | succ i =>
      have hle : (byte_bits b).length ≤ BITS_IN_BYTE * (i + 1) + p := by
        rw [byte_bits_length]; simp only [BITS_IN_BYTE]; omega
      rw [List.getElem?_append_right hle, byte_bits_length]
      have hidx : BITS_IN_BYTE * (i + 1) + p - BITS_IN_BYTE = BITS_IN_BYTE * i + p := by
        simp only [BITS_IN_BYTE]; omega
      rw [hidx, ih i p hp]
      simp

theorem bits_to_bytes_bits (s : List Bool) (k : Nat) (h : s.length = BITS_IN_BYTE * k) :
    ∃ v, bits_to_bytes s = some v ∧ v.length = k ∧
      ∀ i p, i < k → p < BITS_IN_BYTE →
        ∃ b, v[i]? = some b ∧ s[BITS_IN_BYTE * i + p]? = some (decide (b.val / 2 ^ p % 2 = 1)) := by
  have hmod : s.length % BITS_IN_BYTE = 0 := by rw [h]; exact Nat.mul_mod_right _ _
  obtain ⟨v, hv, hvb, hvl⟩ := bits_to_bytes_spec s hmod
  have hk : v.length = k := by
    rw [hvl, h]; exact Nat.mul_div_cancel_left _ (by decide)
  refine ⟨v, hv, hk, ?_⟩
  intro i p hi hp
  have hi1 : i < v.length := by omega
  refine ⟨v[i], List.getElem?_eq_getElem hi1, ?_⟩
  rw [← hvb, bytes_to_bits_get v i p hp, List.getElem?_eq_getElem hi1]
  exact byte_bits_get v[i] ⟨p, hp⟩

set_option maxRecDepth 1000000 in
/-- Claim C14. For a bit sequence `s` of length `8k`, `bits_to_bytes s` has exactly `k` bytes and
for `i < k`, `p < 8` bit `p` (of value `2^p`) of byte `i` is set exactly when `s[8i + p]` is
true; and the sixteen bits of the unit test pack to `[0b11101100, 0b11100000]`. -/
theorem bits_to_bytes_lsb_first (s : List Bool) (k : Nat) (h : s.length = BITS_IN_BYTE * k) :
    (∃ v, bits_to_bytes s = some v ∧ v.length = k ∧
      ∀ i p, i < k → p < BITS_IN_BYTE →
        ∃ b, v[i]? = some b ∧
          s[BITS_IN_BYTE * i + p]? = some (decide (b.val / 2 ^ p % 2 = 1))) ∧
    bits_to_bytes [false, false, true, true, false, true, true, true,
      false, false, false, false, false, true, true, true] = some [0b11101100, 0b11100000] :=
  ⟨bits_to_bytes_bits s k h, by decide⟩

/-- Witness for C14 on eight bits (`k = 1`), the bits of the unit test `read_byte_works`. -/
theorem bits_to_bytes_lsb_first_witness :
    ([false, true, true, false, true, true, true, false] : List Bool).length = BITS_IN_BYTE * 1 ∧
    ∃ v, bits_to_bytes [false, true, true, false, true, true, true, false] = some v ∧
      v.length = 1 :=
  ⟨by decide, by
    obtain ⟨⟨v, hv, hl, _⟩, _⟩ := bits_to_bytes_lsb_first
      [false, true, true, false, true, true, true, false] 1 (by decide)
    exact ⟨v, hv, hl⟩⟩

/-! ## Setting the configuration twice -/

/-- Counterexample to C16 as stated: after a first call of `set_input_file` with the empty file
name, a second call with the name `in.txt` raises nothing and stores `in.txt`. -/
theorem set_input_file_twice_no_error :
    (huffman_runner.init.set_input_file "").1.set_input_file "in.txt" =
      (⟨action.NOT_SET, "in.txt", ""⟩, none) := by
  decide

/-- Claim C16, amended. On every runner: after a first call `set_input_file` with a non-empty
name a second call raises the multiple-inputs error, after a first call `set_output_file` with a
non-empty name a second call raises the multiple-outputs error, and after a first call
`set_action` with `ENCODE` or `DECODE` a second call raises the multiple-actions error; each
failing call leaves action, input and output as they were. -/
theorem set_twice_raises (r : huffman_runner) (f1 f2 : String) (a1 a2 : action)
    (hf : f1 ≠ "") (ha : a1 ≠ action.NOT_SET) :
    (r.set_input_file f1).1.set_input_file f2 =
      ((r.set_input_file f1).1, some MULTIPLE_INPUTS) ∧
    (r.set_output_file f1).1.set_output_file f2 =
      ((r.set_output_file f1).1, some MULTIPLE_OUTPUTS) ∧
    (r.set_action a1).1.set_action a2 = ((r.set_action a1).1, some MULTIPLE_ACTIONS) := by
  refine ⟨?_, ?_, ?_⟩
  · by_cases h : r.input = ""
    · simp [huffman_runner.set_input_file, h, hf]
    · simp [huffman_runner.set_input_file, h]
  · by_cases h : r.output = ""
    · simp [huffman_runner.set_output_file, h, hf]
    · simp [huffman_runner.set_output_file, h]
  · by_cases h : r.op = action.NOT_SET
    · simp [huffman_runner.set_action, h, ha]
    · simp [huffman_runner.set_action, h]

/-- Witness for C16: on a fresh runner, `in.txt` then `other.txt`, and `ENCODE` then `DECODE`. -/
theorem set_twice_raises_witness :
    ("in.txt" ≠ "") ∧ (action.ENCODE ≠ action.NOT_SET) ∧
    (huffman_runner.init.set_input_file "in.txt").1.set_input_file "other.txt" =
      ((huffman_runner.init.set_input_file "in.txt").1, some MULTIPLE_INPUTS) ∧
    (huffman_runner.init.set_action action.ENCODE).1.set_action action.DECODE =
      ((huffman_runner.init.set_action action.ENCODE).1, some MULTIPLE_ACTIONS) :=
  ⟨by decide, by decide,
    (set_twice_raises huffman_runner.init "in.txt" "other.txt" action.ENCODE action.DECODE
      (by decide) (by decide)).1,
    (set_twice_raises huffman_runner.init "in.txt" "other.txt" action.ENCODE action.DECODE
      (by decide) (by decide)).2.2⟩

/-! ## Progress of the decode loop -/

theorem decode_char_dfs_consumes (t : node) : ∀ (it it1 : List Bool) (c : byte),
    decode_char_dfs t it = some (c, it1) →
    ∃ p, it = p ++ it1 ∧ walk t p = some (node.leaf c) ∧ (t.is_leaf = false → p ≠ []) := by
  induction t with
  | leaf ch =>
    intro it it1 c h
    simp only [decode_char_dfs, Option.some.injEq, Prod.mk.injEq] at h
    obtain ⟨rfl, rfl⟩ := h
    exact ⟨[], rfl, rfl, fun h => absurd h (by simp [node.is_leaf])⟩
  | internal l r ihl ihr =>
    intro it it1 c h
    cases it with
    | nil => simp [decode_char_dfs] at h
    | cons b it =>
      cases b with
      | false =>
        simp only [decode_char_dfs] at h
        obtain ⟨p, hp, hw, _⟩ := ihl it it1 c h
        exact ⟨false :: p, by rw [hp]; rfl, by simpa [walk] using hw, fun _ => by simp⟩
      | true =>
        simp only [decode_char_dfs] at h
        obtain ⟨p, hp, hw, _⟩ := ihr it it1 c h
        exact ⟨true :: p, by rw [hp]; rfl, by simpa [walk] using hw, fun _ => by simp⟩

theorem decode_loop_length (fuel : Nat) : ∀ (d : huffman_decoding_tree) (res out : List byte),
    decode_loop fuel d res = some out → out.length ≤ res.length + fuel := by
  induction fuel with
  | zero =>
    intro d res out h
    simp only [decode_loop] at h
    split_ifs at h
    simp only [Option.some.injEq] at h
    rw [← h]
    omega
  | succ fuel ih =>
    intro d res out h
    simp only [decode_loop] at h
    split_ifs at h
    · simp only [Option.some.injEq] at h
      rw [← h]
      omega
    · cases hd : d.decode_char with
      | none => rw [hd] at h; simp at h
      | some p =>
        obtain ⟨ch, d1⟩ := p
        rw [hd] at h
        have := ih d1 (res ++ [ch]) out h
        simp only [List.length_append, List.length_singleton] at this
        omega

theorem decode_stream_steps (pq : priority_queue) (b : List byte) :
    ∃ e bits d res l r, encode pq b = some e ∧
      bytes_with_padding_to_bits e.data = some bits ∧
      huffman_decoding_tree.construct bits = some d ∧ d.tree = node.internal l r ∧
      decode_loop d.it.length d [] = some res ∧ res.length ≤ d.it.length := by
  obtain ⟨l, r, bytes, _, hl, hpack, henc, _⟩ := encode_decode_explicit pq b
  obtain ⟨bytes1, hpack1, hunpack⟩ := bytes_with_padding_to_bits_spec
    (tree_info_dfs (node.internal l r) [] ++ b.flatMap (rel_code (node.internal l r)))
  rw [hpack] at hpack1
  have hb : bytes1 = bytes := (Option.some.inj hpack1).symm
  subst hb
  have hmem : ∀ c ∈ b, c ∈ (node.internal l r).leaves :=
    fun c hc => hl.symm.subset (mem_final_freq b c hc)
  have hloop := decode_loop_codes l r b [] _ hmem (le_refl _)
  refine ⟨_, _, _, b, l, r, henc, hunpack, decoding_tree_construct_tree_info _ _, rfl, ?_, ?_⟩
  · simpa using hloop
  · have := decode_loop_length _ _ _ _ hloop
    simpa using this

theorem decode_char_consumes (d d1 : huffman_decoding_tree) (c : byte)
    (hdec : d.decode_char = some (c, d1)) (hroot : d.tree.is_leaf = false) :
    d1.tree = d.tree ∧
    ∃ p, 1 ≤ p.length ∧ d.it = p ++ d1.it ∧ walk d.tree p = some (node.leaf c) := by
  have hdfs : decode_char_dfs d.tree d.it = some (c, d1.it) ∧ d1.tree = d.tree := by
    simp only [huffman_decoding_tree.decode_char] at hdec
    cases h : decode_char_dfs d.tree d.it with
    | none => rw [h] at hdec; simp at hdec
    | some q =>
      obtain ⟨c1, it1⟩ := q
      rw [h] at hdec
      simp only [Option.some.injEq, Prod.mk.injEq] at hdec
      obtain ⟨rfl, rfl⟩ := hdec
      exact ⟨rfl, rfl⟩
  obtain ⟨p, hp, hw, hne⟩ := decode_char_dfs_consumes d.tree d.it d1.it c hdfs.1
  exact ⟨hdfs.2, p, List.length_pos.2 (hne hroot), hp, hw⟩

/-- Claim C20. On a decoding tree whose root is internal, a successful `decode_char` consumes
the bits of a non-empty path from the root to the leaf it returns (so at least one bit, exactly
the depth of that leaf); on a tree that is a single leaf it returns without consuming a bit; and
for every stream produced by `encode` the reconstructed tree has an internal root and the decode
loop, given as many iterations as there are payload bits, ends with a result, having made at
most that many steps (one per decoded byte). -/
theorem decode_loop_progress (pq : priority_queue) (b : List byte) :
    (∀ (d d1 : huffman_decoding_tree) (c : byte), d.decode_char = some (c, d1) →
      d.tree.is_leaf = false →
      d1.tree = d.tree ∧
      ∃ p, 1 ≤ p.length ∧ d.it = p ++ d1.it ∧ walk d.tree p = some (node.leaf c)) ∧
    (∀ (ch : byte) (it : List Bool),
      (huffman_decoding_tree.mk (node.leaf ch) it).decode_char =
        some (ch, ⟨node.leaf ch, it⟩)) ∧
    ∃ e bits ds res l r, encode pq b = some e ∧
      bytes_with_padding_to_bits e.data = some bits ∧
      huffman_decoding_tree.construct bits = some ds ∧ ds.tree = node.internal l r ∧
      decode_loop ds.it.length ds [] = some res ∧ res.length ≤ ds.it.length :=
  ⟨decode_char_consumes, fun _ _ => rfl, decode_stream_steps pq b⟩

/-- Witness for C20: `decode_char` on the tree with leaves `97` and `98` and the cursor at the
bits `1, 0` returns `98` and leaves the cursor at the bit `0`, one bit further. -/
theorem decode_loop_progress_witness :
    (huffman_decoding_tree.mk (node.internal (node.leaf 97) (node.leaf 98))
        [true, false]).decode_char =
      some (98, ⟨node.internal (node.leaf 97) (node.leaf 98), [false]⟩) ∧
    (node.internal (node.leaf 97) (node.leaf 98)).is_leaf = false ∧
    ∃ p, 1 ≤ p.length ∧ [true, false] = p ++ [false] ∧
      walk (node.internal (node.leaf 97) (node.leaf 98)) p = some (node.leaf 98) :=
  ⟨rfl, rfl, ((decode_loop_progress list_queue []).1
    ⟨node.internal (node.leaf 97) (node.leaf 98), [true, false]⟩
    ⟨node.internal (node.leaf 97) (node.leaf 98), [false]⟩ 98 rfl rfl).2⟩

/-! ## The payload is never longer than the input -/

theorem balanced_spec (d : Nat) : ∀ L : List byte, L ≠ [] → L.length ≤ 2 ^ d →
    (balanced d L).leaves = L ∧ (balanced d L).height ≤ d := by
  induction d with
  | zero =>
    intro L hne hlen
    match L, hne, hlen with
    | [x], _, _ => exact ⟨rfl, le_refl _⟩
    | _ :: _ :: _, _, h => simp at h
  | succ d ih =>
    intro L hne hlen
    by_cases h1 : L.length ≤ 1
    · match L, hne, h1 with
      | [x], _, _ => simp [balanced, node.leaves, node.height]
      | _ :: _ :: _, _, h => simp at h
    · have hpow : 2 ^ (d + 1) = 2 * 2 ^ d := by ring
      have htl : (L.take (L.length / 2)).length = L.length / 2 := by
        rw [List.length_take]; omega
      have hdl : (L.drop (L.length / 2)).length = L.length - L.length / 2 := List.length_drop _ _
      have hne1 : L.take (L.length / 2) ≠ [] := by
        intro h; rw [h] at htl; simp at htl; omega
      have hne2 : L.drop (L.length / 2) ≠ [] := by
        intro h; rw [h] at hdl; simp at hdl; omega
      obtain ⟨hl1, hh1⟩ := ih _ hne1 (by rw [htl]; omega)
      obtain ⟨hl2, hh2⟩ := ih _ hne2 (by rw [hdl]; omega)
      simp only [balanced, h1, if_false, node.leaves, node.height, hl1, hl2,
        List.take_append_drop, true_and]
      omega

theorem cost_le_height_mul_weight (freq : byte → Nat) (t : node) :
    cost freq t ≤ t.height * weight freq t := by
  induction t with
  | leaf c => simp [cost]
  | internal l r ihl ihr =>
    simp only [cost, node.height, weight_internal]
    have h1 : l.height * weight freq l ≤ max l.height r.height * weight freq l :=
      Nat.mul_le_mul_right _ (le_max_left _ _)
    have h2 : r.height * weight freq r ≤ max l.height r.height * weight freq r :=
      Nat.mul_le_mul_right _ (le_max_right _ _)
    have h3 : (max l.height r.height + 1) * (weight freq l + weight freq r) =
        max l.height r.height * weight freq l + max l.height r.height * weight freq r +
          weight freq l + weight freq r := by ring
    omega

theorem sum_map_ite_eq (h : byte → Nat) (x : byte) (L : List byte) (hnd : L.Nodup)
    (hx : x ∈ L) : (L.map (fun c => if c = x then h c else 0)).sum = h x := by
  induction L with
  | nil => simp at hx
  | cons a L ih =>
    rw [List.nodup_cons] at hnd
    rw [List.map_cons, List.sum_cons]
    by_cases hax : a = x
    · subst hax
      have hzero : (L.map (fun c => if c = a then h c else 0)).sum = 0 := by
        apply List.sum_eq_zero
        intro y hy
        rw [List.mem_map] at hy
        obtain ⟨c, hc, rfl⟩ := hy
        have : c ≠ a := fun hca => hnd.1 (hca ▸ hc)
        simp [this]
      simp [hzero]
    · have hxL : x ∈ L := by
        rcases List.mem_cons.1 hx with h1 | h1
        · exact absurd h1.symm hax
        · exact h1
      simp [hax, ih hnd.2 hxL]

theorem sum_map_eq_sum_count (h : byte → Nat) (L : List byte) (hnd : L.Nodup) :
    ∀ data : List byte, (∀ c ∈ data, c ∈ L) →
      (data.map h).sum = (L.map (fun c => data.count c * h c)).sum := by
  intro data
  induction data with
  | nil =>
    intro _
    simp
  | cons x data ih =>
    intro hmem
    have hx : x ∈ L := hmem x (List.mem_cons_self _ _)
    have hsplit : (L.map (fun c => (x :: data).count c * h c)).sum =
        (L.map (fun c => data.count c * h c)).sum +
          (L.map (fun c => if c = x then h c else 0)).sum := by
      rw [← List.sum_map_add]
      apply sum_map_congr_mem
      intro c _
      by_cases hcx : c = x
      · subst hcx
        simp [List.count_cons_self]
        ring
      · rw [List.count_cons_of_ne hcx]
        simp [hcx]
    rw [hsplit, sum_map_ite_eq h x L hnd hx, List.map_cons, List.sum_cons,
      ih (fun c hc => hmem c (List.mem_cons_of_mem _ hc))]
    omega

theorem flatMap_length_eq_sum {α : Type} (g : byte → List α) (data : List byte) :
    (data.flatMap g).length = (data.map (fun c => (g c).length)).sum := by
  induction data with
  | nil => rfl
  | cons a data ih => simp [List.flatMap_cons, ih]

theorem data_cases (data : List byte) :
    data = [] ∨ (∃ a n, data = List.replicate (n + 1) a) ∨
      ∃ a ∈ data, ∃ b ∈ data, a ≠ b := by
  cases data with
  | nil => exact Or.inl rfl
  | cons a l =>
    by_cases hall : ∀ x ∈ a :: l, x = a
    · exact Or.inr (Or.inl ⟨a, l.length, List.eq_replicate_iff.2 ⟨by simp, hall⟩⟩)
    · have hex : ∃ b, b ∈ a :: l ∧ b ≠ a := by
        by_contra hcon
        apply hall
        intro x hx
        by_contra hne
        exact hcon ⟨x, hx, hne⟩
      obtain ⟨b, hb, hba⟩ := hex
      exact Or.inr (Or.inr ⟨b, hb, a, List.mem_cons_self _ _, hba⟩)

theorem final_freq_replicate_ne_zero_iff (n : Nat) (a c : byte) :
    final_freq (List.replicate (n + 1) a) c ≠ 0 ↔ c = a ∨ c = byte_succ a := by
  rw [final_freq_replicate]
  by_cases h1 : c = a
  · simp [h1]
  · by_cases h2 : c = byte_succ a
    · have hne : byte_succ a ≠ a := byte_succ_ne a
      simp [h2, hne]
    · simp [h1, h2]

theorem rel_code_two_leaves_length (x y c : byte) :
    (rel_code (node.internal (node.leaf x) (node.leaf y)) c).length = 1 := by
  simp only [rel_code]
  split_ifs <;> rfl

theorem sum_count_eq_length (L : List byte) (hnd : L.Nodup) (data : List byte)
    (hmem : ∀ c ∈ data, c ∈ L) : (L.map (fun c => data.count c)).sum = data.length := by
  have h := sum_map_eq_sum_count (fun _ => 1) L hnd data hmem
  simp only [Nat.mul_one] at h
  rw [← h]
  simp

/-- The payload of `encode`: the codes of the bytes of the buffer, for the tree the constructor
builds, have at most `8 * length` bits in total. -/
theorem payload_length_le (pq : priority_queue) (data : List byte) (l r : node)
    (ht : huffman_encoding_tree.construct pq data =
      some ⟨node.internal l r, build_codes (node.internal l r)⟩)
    (hl : (node.internal l r).leaves.Perm (nonzero_syms (final_freq data))) :
    (data.flatMap (rel_code (node.internal l r))).length ≤ BITS_IN_BYTE * data.length := by
  have htree : ∀ t : huffman_encoding_tree, huffman_encoding_tree.construct pq data = some t →
      t.tree = node.internal l r := by
    intro t h
    rw [ht] at h
    exact (congrArg huffman_encoding_tree.tree (Option.some.inj h)).symm
  rcases data_cases data with h0 | ⟨a, n, hrep⟩ | ⟨a, ha, b, hb, hab⟩
  · rw [h0]; simp
  · obtain ⟨t, x, y, hc, hxy, _⟩ := two_leaf_tree_of_pair pq data a
      (by intro c; rw [hrep]; exact final_freq_replicate_ne_zero_iff n a c)
    rw [← htree t hc, hxy, flatMap_length_eq_sum]
    simp only [rel_code_two_leaves_length, List.map_const', List.sum_replicate, smul_eq_mul,
      Nat.mul_one, BITS_IN_BYTE]
    omega
  · have hf : final_freq data = count_freq data := final_freq_of_two data a b ha hb hab
    have hnd : (node.internal l r).leaves.Nodup := hl.nodup_iff.2 (nonzero_syms_nodup _)
    have hmem : ∀ c ∈ data, c ∈ (node.internal l r).leaves :=
      fun c hc => hl.symm.subset (mem_final_freq data c hc)
    have hcount : (fun c => data.count c) = final_freq data := by
      funext c; rw [hf, count_freq_eq]
    have hpay : (data.flatMap (rel_code (node.internal l r))).length =
        cost (final_freq data) (node.internal l r) := by
      rw [flatMap_length_eq_sum, sum_map_eq_sum_count _ _ hnd data hmem,
        ← sum_rel_code_eq_cost _ _ hnd]
      apply sum_map_congr_mem
      intro c _
      rw [← hcount]
    have hne : nonzero_syms (final_freq data) ≠ [] := by
      intro h
      have := hl.length_eq
      rw [h, List.length_nil] at this
      have hpos := leaves_length_pos (node.internal l r)
      omega
    have hlen : (nonzero_syms (final_freq data)).length ≤ 2 ^ 8 := by
      have h1 := List.length_filter_le (fun ch => decide (final_freq data ch ≠ 0))
        (List.finRange 256)
      rw [List.length_finRange] at h1
      exact h1
    obtain ⟨hbl, hbh⟩ := balanced_spec 8 _ hne hlen
    obtain ⟨e, he, hle⟩ := construct_cost_le pq data (balanced 8 (nonzero_syms (final_freq data)))
      (by rw [hbl])
    have hsub : e.subtree = node.internal l r := htree _ he
    rw [hsub] at hle
    have hcw := cost_le_height_mul_weight (final_freq data)
      (balanced 8 (nonzero_syms (final_freq data)))
    have hw : weight (final_freq data) (balanced 8 (nonzero_syms (final_freq data))) =
        data.length := by
      rw [weight, hbl]
      have hsum := sum_count_eq_length (nonzero_syms (final_freq data)) (nonzero_syms_nodup _)
        data (fun c hc => mem_final_freq data c hc)
      rw [← hsum]
      apply sum_map_congr_mem
      intro c _
      rw [hf, count_freq_eq]
    rw [hw] at hcw
    have h8 : (balanced 8 (nonzero_syms (final_freq data))).height * data.length ≤
        8 * data.length := Nat.mul_le_mul_right _ hbh
    rw [hpay]
    simp only [BITS_IN_BYTE]
    omega

/-- Claim C18. For every byte sequence `b`, `encode` succeeds and the payload size it reports,
the sum of the code lengths of the bytes of `b` rounded up to whole bytes, is at most the length
of `b`. -/
theorem processed_size_le (pq : priority_queue) (b : List byte) :
    ∃ t e, huffman_encoding_tree.construct pq b = some t ∧ encode pq b = some e ∧
      e.processed_size =
        ((b.map (fun c => (t.get_code c).length)).sum + BITS_IN_BYTE - 1) / BITS_IN_BYTE ∧
      e.processed_size ≤ b.length := by
  obtain ⟨l, r, bytes, ht, hl, _, henc, _⟩ := encode_decode_explicit pq b
  have hle := payload_length_le pq b l r ht hl
  have hmem : ∀ c ∈ b, c ∈ (node.internal l r).leaves :=
    fun c hc => hl.symm.subset (mem_final_freq b c hc)
  refine ⟨_, _, ht, henc, ?_, ?_⟩
  · show ((b.flatMap (rel_code (node.internal l r))).length + BITS_IN_BYTE - 1) / BITS_IN_BYTE =
      ((b.map (fun c => (build_codes (node.internal l r) c).length)).sum + BITS_IN_BYTE - 1)
        / BITS_IN_BYTE
    rw [flatMap_length_eq_sum]
    congr 3
    apply sum_map_congr_mem
    intro c hc
    rw [build_codes_eq, if_pos (hmem c hc)]
  · show ((b.flatMap (rel_code (node.internal l r))).length + BITS_IN_BYTE - 1) / BITS_IN_BYTE ≤
      b.length
    simp only [BITS_IN_BYTE] at hle ⊢
    omega

/-! ## A more frequent symbol never gets a longer code -/

theorem relabel_leaves (σ : byte → byte) (t : node) :
    (relabel σ t).leaves = t.leaves.map σ := by
  induction t with
  | leaf c => rfl
  | internal l r ihl ihr => simp [relabel, node.leaves, ihl, ihr]

theorem relabel_weight (freq : byte → Nat) (σ : byte → byte) (t : node) :
    weight freq (relabel σ t) = weight (fun c => freq (σ c)) t := by
  rw [weight, weight, relabel_leaves, List.map_map]
  rfl

theorem relabel_cost (freq : byte → Nat) (σ : byte → byte) (t : node) :
    cost freq (relabel σ t) = cost (fun c => freq (σ c)) t := by
  induction t with
  | leaf c => rfl
  | internal l r ihl ihr =>
    simp only [relabel, cost, ihl, ihr, relabel_weight]

theorem swap_leaves_perm (L : List byte) (c1 c2 : byte) (hnd : L.Nodup) (h1 : c1 ∈ L)
    (h2 : c2 ∈ L) : (L.map (Equiv.swap c1 c2)).Perm L := by
  rw [List.perm_ext_iff_of_nodup (hnd.map (Equiv.swap c1 c2).injective) hnd]
  intro x
  rw [List.mem_map]
  constructor
  · rintro ⟨y, hy, rfl⟩
    by_cases hy1 : y = c1
    · rw [hy1, Equiv.swap_apply_left]; exact h2
    · by_cases hy2 : y = c2
      · rw [hy2, Equiv.swap_apply_right]; exact h1
      · rw [Equiv.swap_apply_of_ne_of_ne hy1 hy2]; exact hy
  · intro hx
    refine ⟨Equiv.swap c1 c2 x, ?_, Equiv.swap_apply_self c1 c2 x⟩
    by_cases hx1 : x = c1
    · rw [hx1, Equiv.swap_apply_left]; exact h2
    · by_cases hx2 : x = c2
      · rw [hx2, Equiv.swap_apply_right]; exact h1
      · rw [Equiv.swap_apply_of_ne_of_ne hx1 hx2]; exact hx

/-- Swapping the frequencies of two symbols of a list without repetition changes a weighted sum
by the two affected terms only. -/
theorem sum_swap (freq d : byte → Nat) (L : List byte) (c1 c2 : byte) (hnd : L.Nodup)
    (h1 : c1 ∈ L) (h2 : c2 ∈ L) (hne : c1 ≠ c2) :
    ∃ R, (L.map (fun c => freq c * d c)).sum = freq c1 * d c1 + freq c2 * d c2 + R ∧
      (L.map (fun c => freq (Equiv.swap c1 c2 c) * d c)).sum =
        freq c2 * d c1 + freq c1 * d c2 + R := by
  have hp1 : L.Perm (c1 :: L.erase c1) := List.perm_cons_erase h1
  have h2e : c2 ∈ L.erase c1 := (List.mem_erase_of_ne (fun h => hne h.symm)).2 h2
  have hp2 : (L.erase c1).Perm (c2 :: (L.erase c1).erase c2) := List.perm_cons_erase h2e
  have hp : L.Perm (c1 :: c2 :: (L.erase c1).erase c2) := hp1.trans (hp2.cons c1)
  have hnd2 : (c1 :: c2 :: (L.erase c1).erase c2).Nodup := hp.nodup_iff.1 hnd
  refine ⟨(((L.erase c1).erase c2).map (fun c => freq c * d c)).sum, ?_, ?_⟩
  · rw [(hp.map (fun c => freq c * d c)).sum_eq]
    simp only [List.map_cons, List.sum_cons]
    omega
  · rw [(hp.map (fun c => freq (Equiv.swap c1 c2 c) * d c)).sum_eq]
    simp only [List.map_cons, List.sum_cons, Equiv.swap_apply_left, Equiv.swap_apply_right]
    have hrest : (((L.erase c1).erase c2).map (fun c => freq (Equiv.swap c1 c2 c) * d c)).sum =
        (((L.erase c1).erase c2).map (fun c => freq c * d c)).sum := by
      apply sum_map_congr_mem
      intro c hc
      have hc1 : c ≠ c1 := by
        intro h
        rw [h] at hc
        exact (List.nodup_cons.1 hnd2).1 (List.mem_cons_of_mem _ hc)
      have hc2 : c ≠ c2 := by
        intro h
        rw [h] at hc
        exact (List.nodup_cons.1 (List.nodup_cons.1 hnd2).2).1 hc
      rw [Equiv.swap_apply_of_ne_of_ne hc1 hc2]
    rw [hrest]
    omega

theorem code_length_antitone (pq : priority_queue) (data : List byte) (l r : node)
    (ht : huffman_encoding_tree.construct pq data =
      some ⟨node.internal l r, build_codes (node.internal l r)⟩)
    (hl : (node.internal l r).leaves.Perm (nonzero_syms (final_freq data)))
    (c1 c2 : byte) (h1 : c1 ∈ (node.internal l r).leaves) (h2 : c2 ∈ (node.internal l r).leaves)
    (hlt : final_freq data c2 < final_freq data c1) :
    (rel_code (node.internal l r) c1).length ≤ (rel_code (node.internal l r) c2).length := by
  have hne : c1 ≠ c2 := by
    intro h
    rw [h] at hlt
    exact lt_irrefl _ hlt
  have hnd : (node.internal l r).leaves.Nodup := hl.nodup_iff.2 (nonzero_syms_nodup _)
  have hS : (relabel (Equiv.swap c1 c2) (node.internal l r)).leaves.Perm
      (nonzero_syms (final_freq data)) := by
    rw [relabel_leaves]
    exact (swap_leaves_perm _ c1 c2 hnd h1 h2).trans hl
  obtain ⟨e, he, hle⟩ := construct_cost_le pq data _ hS
  rw [ht] at he
  have hsub : node.internal l r = e.subtree :=
    congrArg huffman_encoding_tree.tree (Option.some.inj he)
  rw [← hsub, relabel_cost, ← sum_rel_code_eq_cost _ _ hnd, ← sum_rel_code_eq_cost _ _ hnd] at hle
  obtain ⟨R, hs1, hs2⟩ := sum_swap (final_freq data)
    (fun c => (rel_code (node.internal l r) c).length) _ c1 c2 hnd h1 h2 hne
  rw [hs1, hs2] at hle
  by_contra hcon
  have hd : (rel_code (node.internal l r) c2).length <
      (rel_code (node.internal l r) c1).length := by omega
  nlinarith [Nat.mul_lt_mul_of_lt_of_lt hlt hd, hlt, hd]

/-- Claim C19. For every buffer the tree is built, and for two leaf symbols `c1`, `c2` of it: if
the adjusted frequency of `c1` is strictly greater than that of `c2`, then `get_code(c1)` is at
most as long as `get_code(c2)`. -/
theorem more_frequent_not_longer (pq : priority_queue) (data : List byte) :
    ∃ t, huffman_encoding_tree.construct pq data = some t ∧
      ∀ c1 c2 : byte, c1 ∈ t.tree.leaves → c2 ∈ t.tree.leaves →
        final_freq data c2 < final_freq data c1 →
        (t.get_code c1).length ≤ (t.get_code c2).length := by
  obtain ⟨l, r, ht, hl⟩ := construct_basic pq data
  refine ⟨_, ht, ?_⟩
  intro c1 c2 h1 h2 hlt
  simp only [huffman_encoding_tree.get_code]
  rw [build_codes_eq, build_codes_eq, if_pos h1, if_pos h2]
  exact code_length_antitone pq data l r ht hl c1 c2 h1 h2 hlt

set_option maxRecDepth 1000000 in
/-- Witness for C19 on the buffer `aabac`: `a` (three times) and `b` (once) are leaves, and the
code of `a` is not longer than the code of `b`. -/
theorem more_frequent_not_longer_witness :
    final_freq [97, 97, 98, 97, 99] 98 < final_freq [97, 97, 98, 97, 99] 97 ∧
    ∃ t, huffman_encoding_tree.construct list_queue [97, 97, 98, 97, 99] = some t ∧
      (97 : byte) ∈ t.tree.leaves ∧ (98 : byte) ∈ t.tree.leaves ∧
      (t.get_code 97).length ≤ (t.get_code 98).length := by
  have hlt : final_freq [97, 97, 98, 97, 99] 98 < final_freq [97, 97, 98, 97, 99] 97 := by
    decide
  obtain ⟨t, ht, h⟩ := more_frequent_not_longer list_queue [97, 97, 98, 97, 99]
  obtain ⟨l, r, ht1, hl⟩ := construct_basic list_queue [97, 97, 98, 97, 99]
  rw [ht] at ht1
  have htree : t.tree = node.internal l r :=
    congrArg huffman_encoding_tree.tree (Option.some.inj ht1)
  have h97 : (97 : byte) ∈ t.tree.leaves := by
    rw [htree]; exact hl.symm.subset (mem_final_freq _ _ (by decide))
  have h98 : (98 : byte) ∈ t.tree.leaves := by
    rw [htree]; exact hl.symm.subset (mem_final_freq _ _ (by decide))
  exact ⟨hlt, t, ht, h97, h98, h 97 98 h97 h98 hlt⟩

/-! ## The auxiliary size never wraps -/

theorem tree_info_length (t : node) :
    (tree_info_dfs t []).length + 1 = 10 * t.leaves.length := by
  induction t with
  | leaf c =>
    rw [tree_info_dfs_leaf, List.length_cons, byte_bits_length]
    rfl
  | internal l r ihl ihr =>
    rw [tree_info_dfs_internal]
    simp only [List.length_cons, List.length_append, node.leaves]
    omega

theorem size_t_sub_eq (a b : Nat) (hle : b ≤ a) (hlt : a - b < 2 ^ 64) :
    size_t_sub a b = a - b := by
  have hM : (2 : Nat) ^ 64 = 18446744073709551616 := by norm_num
  rw [size_t_sub]
  rw [hM] at hlt ⊢
  omega

/-- The packed output of `encode`, measured in true integers: it is at least 3 bytes and at most
322 bytes longer than the payload byte size. -/
theorem packed_length_bounds (T P n : Nat) (hT1 : 19 ≤ T) (hT2 : T ≤ 2559)
    (hn : n = 1 + (T + P + (BITS_IN_BYTE - (T + P) % BITS_IN_BYTE)) / BITS_IN_BYTE) :
    (P + BITS_IN_BYTE - 1) / BITS_IN_BYTE + 3 ≤ n ∧
      n - (P + BITS_IN_BYTE - 1) / BITS_IN_BYTE ≤ 322 := by
  simp only [BITS_IN_BYTE] at hn ⊢
  omega

theorem aux_size_spec (pq : priority_queue) (b : List byte) :
    ∃ e d, encode pq b = some e ∧ decode e.data = some d ∧
      3 ≤ e.aux_size ∧ e.data.length = e.processed_size + e.aux_size ∧
      3 ≤ d.aux_size ∧ e.data.length = d.initial_size + d.aux_size ∧
      d.aux_size = e.aux_size := by
  obtain ⟨l, r, bytes, _, hl, hpack, henc, hdec⟩ := encode_decode_explicit pq b
  obtain ⟨w, _, hpack1, hlen⟩ := bits_to_bytes_with_padding_layout
    (tree_info_dfs (node.internal l r) [] ++ b.flatMap (rel_code (node.internal l r)))
  rw [hpack] at hpack1
  rw [← Option.some.inj hpack1, List.length_append] at hlen
  have hT := tree_info_length (node.internal l r)
  have hL1 : 2 ≤ (node.internal l r).leaves.length := by
    have h1 := leaves_length_pos l
    have h2 := leaves_length_pos r
    simp only [node.leaves, List.length_append]
    omega
  have hL2 : (node.internal l r).leaves.length ≤ 256 := by
    rw [hl.length_eq]
    have h1 := List.length_filter_le (fun ch => decide (final_freq b ch ≠ 0))
      (List.finRange 256)
    rw [List.length_finRange] at h1
    exact h1
  obtain ⟨hlo, hhi⟩ := packed_length_bounds (tree_info_dfs (node.internal l r) []).length
    (b.flatMap (rel_code (node.internal l r))).length bytes.length (by omega) (by omega) hlen
  have hsub := size_t_sub_eq bytes.length
    (((b.flatMap (rel_code (node.internal l r))).length + BITS_IN_BYTE - 1) / BITS_IN_BYTE)
    (by omega) (lt_of_le_of_lt hhi (by norm_num))
  refine ⟨_, _, henc, hdec, ?_, ?_, ?_, ?_, rfl⟩
  · dsimp only
    rw [hsub]; omega
  · dsimp only
    rw [hsub]; omega
  · dsimp only
    rw [hsub]; omega
  · dsimp only
    rw [hsub]; omega

/-- Claim C21. For every byte sequence `b`, with `e = encode(b)` and `d = decode(e.data)`: the
wrapping `size_t` subtraction that computes `aux_size` yields the true difference, which is at
least 3, so `e.aux_size >= 3` and `e.data.size() = e.processed_size + e.aux_size`; and the same
holds for the `aux_size` that `decode` computes from `e.data` and its payload size. -/
theorem aux_size_never_wraps (pq : priority_queue) (b : List byte) :
    ∃ e d, encode pq b = some e ∧ decode e.data = some d ∧
      3 ≤ e.aux_size ∧ e.data.length = e.processed_size + e.aux_size ∧
      3 ≤ d.aux_size ∧ e.data.length = d.initial_size + d.aux_size ∧
      d.aux_size = e.aux_size :=
  aux_size_spec pq b

end Huffman
